import Mathlib

/-!
Verification development for the PVTFC static-site generator's template
engine (`build.js`).  The engine consists of three functions:

* `resolvePath`  - dot-path lookup in a JSON-like context,
* `findBlockEnd` - scanner locating the matching closing tag of a block,
* `render`       - the recursive template renderer.

They are shallowly embedded below.  Strings are `List Char`; JSON-like
values are the inductive `Value`; the possible non-termination of `render`
(cyclic partials) is made explicit with a fuel parameter returning
`Option`.  JavaScript semantics is modelled as follows: property access
covers own properties of JSON-like data (object fields, array/string
`length` and canonical numeric indices); inherited methods are outside the
model.  Numbers are modelled as integers (the data relevant here is
integral).  `console.warn` diagnostics are modelled as an accumulated list
of warning strings returned next to the output.
-/

namespace PVTFC

abbrev Str := List Char

def toL (s : String) : Str := s.data

/-- Boolean prefix test on character lists (used to model anchored
literal regex fragments). -/
def pfx : Str → Str → Bool
  | [], _ => true
  | _ :: _, [] => false
  | a :: as, b :: bs => a == b && pfx as bs

/-- JavaScript word character, the regex class backslash-w:
ASCII letters, digits and underscore. -/
def isWordChar (c : Char) : Bool := c.isAlphanum || c == '_'

/-- JavaScript whitespace (regex class backslash-s), restricted to the
ASCII whitespace characters. -/
def isWsChar (c : Char) : Bool :=
  c == ' ' || c == '\t' || c == '\n' || c == '\r' || c == '\x0b' || c == '\x0c'

/-- Character allowed in a block path, the regex class of word chars
and dots. -/
def isPathChar (c : Char) : Bool := isWordChar c || c == '.'

/-- Character allowed in a variable path: word chars, dots, and at-sign. -/
def isVarChar (c : Char) : Bool := isPathChar c || c == '@'

/-! ## The data model: JSON-like values -/

/-- JSON-like runtime values of the template engine, plus the two
JavaScript empty values `null` and `undefined`, which the engine
distinguishes from data. -/
inductive Value : Type where
  | null : Value
  | undef : Value
  | bool : Bool → Value
  | num : Int → Value
  | str : Str → Value
  | arr : List Value → Value
  | obj : List (Str × Value) → Value

def isUndef : Value → Bool
  | .undef => true
  | _ => false

def isNull : Value → Bool
  | .null => true
  | _ => false

/-- First-match association-list lookup; a missing key is JavaScript
`undefined`. -/
def lookupField : List (Str × Value) → Str → Value
  | [], _ => .undef
  | (k, v) :: rest, key => if k == key then v else lookupField rest key

def digitsToNat (s : Str) : Nat := s.foldl (fun n c => n * 10 + (c.toNat - 48)) 0

/-- A canonical array-index key as JavaScript defines it: the string "0",
or a non-empty digit string without a leading zero. -/
def canonicalIndex (s : Str) : Option Nat :=
  if s == toL "0" then some 0
  else if (!s.isEmpty) && s.all (·.isDigit) && s.head? != some '0' then
    some (digitsToNat s)
  else none

/-- JavaScript own-property access `acc[key]` on JSON-like data: object
fields by key, `length` and canonical indices on arrays and strings;
everything else is `undefined`.  Inherited prototype-chain properties
(such as the `String.prototype` methods found by `''['charAt']`) are
outside this modeled fragment, so statements about resolution results
are kept parametric in this function or pinned to keys that name no
inherited property. -/
def getProp : Value → Str → Value
  | .obj fields, key => lookupField fields key
  | .arr xs, key =>
      if key == toL "length" then .num xs.length
      else match canonicalIndex key with
        | some i => match xs[i]? with
          | some v => v
          | none => .undef
        | none => .undef
  | .str s, key =>
      if key == toL "length" then .num s.length
      else match canonicalIndex key with
        | some i => match s[i]? with
          | some c => .str [c]
          | none => .undef
        | none => .undef
  | _, _ => Value.undef

/-- `String.prototype.split('.')`: split at every dot, keeping empty
pieces, one more piece than there are dots. -/
def splitDotAux : Str → Str → List Str
  | [], cur => [cur.reverse]
  | c :: rest, cur =>
      if c == '.' then cur.reverse :: splitDotAux rest []
      else splitDotAux rest (c :: cur)

def splitDot (s : Str) : List Str := splitDotAux s []

/-- One step of the `reduce` callback in `resolvePath`: a `null` or
`undefined` accumulator is replaced by the empty string, otherwise the
key is looked up in the accumulator. -/
def stepSeg (acc : Value) (key : Str) : Value :=
  if isUndef acc || isNull acc then .str [] else getProp acc key

/-- `resolvePath(obj, dotPath)` from build.js: fold the reduce callback
over the dot-separated segments, starting from the whole object. -/
def resolvePath (obj : Value) (dotPath : Str) : Value :=
  (splitDot dotPath).foldl stepSeg obj

/-- JavaScript truthiness of a value, as used by `val ? ... : ...` and
`!val` in build.js.  Note that arrays and objects, empty or not, are
truthy. -/
def truthy : Value → Bool
  | .null => false
  | .undef => false
  | .bool b => b
  | .num n => n != 0
  | .str s => !s.isEmpty
  | .arr _ => true
  | .obj _ => true

/-- Decimal representation of an integer, as JavaScript `String(n)`. -/
def intStr (n : Int) : Str := (toString n).data

mutual
/-- JavaScript `String(val)` on JSON-like values: identity on strings,
decimal on numbers, `true`/`false` on booleans, comma-join on arrays,
and the generic object tag on objects. -/
def toDisplay : Value → Str
  | .null => toL "null"
  | .undef => toL "undefined"
  | .bool true => toL "true"
  | .bool false => toL "false"
  | .num n => intStr n
  | .str s => s
  | .arr xs => joinComma xs
  | .obj _ => toL "[object Object]"
termination_by structural v => v

/-- `Array.prototype.join(',')` with the element conversion of
`Array.prototype.toString`: `null` and `undefined` elements become
empty, every other element is `String(el)`. -/
def joinComma : List Value → Str
  | [] => []
  | [.null] => []
  | [.undef] => []
  | [v] => toDisplay v
  | .null :: vs => ',' :: joinComma vs
  | .undef :: vs => ',' :: joinComma vs
  | v :: vs => toDisplay v ++ ',' :: joinComma vs
termination_by structural l => l
end

/-! ## Tag matchers

Each anchored regex of build.js is modelled by a function returning the
captured path/name and the length of the whole match, or `none` when the
regex does not match at the start of the string. -/

/-- The anchored partial-reference regex: open braces, a greater-than
sign, optional whitespace, a word-character name, optional whitespace,
close braces.  Returns the name and the match length. -/
def matchPartialTag (s : Str) : Option (Str × Nat) :=
  if pfx (toL "\x7b\x7b>") s then
    let r := s.drop 3
    let ws1 := r.takeWhile isWsChar
    let r1 := r.drop ws1.length
    let name := r1.takeWhile isWordChar
    if name.isEmpty then none
    else
      let r2 := r1.drop name.length
      let ws2 := r2.takeWhile isWsChar
      let r3 := r2.drop ws2.length
      if pfx (toL "\x7d\x7d") r3 then
        some (name, 3 + ws1.length + name.length + ws2.length + 2)
      else none
  else none

/-- The anchored block-opening regex for a keyword `kw` (one of each, if,
unless): open braces, hash, the keyword, mandatory whitespace, a path of
word characters and dots, close braces. -/
def matchBlockOpen (kw : Str) (s : Str) : Option (Str × Nat) :=
  if pfx (toL "\x7b\x7b#" ++ kw) s then
    let r := s.drop (3 + kw.length)
    let ws := r.takeWhile isWsChar
    if ws.isEmpty then none
    else
      let r1 := r.drop ws.length
      let path := r1.takeWhile isPathChar
      if path.isEmpty then none
      else
        let r2 := r1.drop path.length
        if pfx (toL "\x7d\x7d") r2 then
          some (path, 3 + kw.length + ws.length + path.length + 2)
        else none
  else none

def matchEach (s : Str) : Option (Str × Nat) := matchBlockOpen (toL "each") s

def matchIf (s : Str) : Option (Str × Nat) := matchBlockOpen (toL "if") s

def matchUnless (s : Str) : Option (Str × Nat) := matchBlockOpen (toL "unless") s

/-- The anchored variable regex: open braces, a non-empty run of word
characters, dots and at-signs, close braces. -/
def matchVar (s : Str) : Option (Str × Nat) :=
  if pfx (toL "\x7b\x7b") s then
    let r := s.drop 2
    let path := r.takeWhile isVarChar
    if path.isEmpty then none
    else
      let r1 := r.drop path.length
      if pfx (toL "\x7d\x7d") r1 then some (path, 2 + path.length + 2)
      else none
  else none

/-- `remaining.indexOf('{{')`: position of the first brace pair. -/
def idxOfBraces : Str → Option Nat
  | [] => none
  | c :: rest =>
      if pfx (toL "\x7b\x7b") (c :: rest) then some 0
      else (idxOfBraces rest).map (· + 1)

/-! ## The block scanner `findBlockEnd` -/

/-- The alternation list of the two patterns in `findBlockEnd`, in source
order: the searched tag, then if, each, unless. -/
def kwAlt (tag : Str) : List Str :=
  [tag, toL "if", toL "each", toL "unless"]

/-- Whether the string starts with one whitespace character. -/
def wsAt (s : Str) : Bool :=
  match s.head? with
  | some c => isWsChar c
  | none => false

/-- The open pattern of `findBlockEnd`: open braces, hash, one of the
alternation keywords, one whitespace character.  Returns the match
length when it matches at the start of the string. -/
def openLen? (tag : Str) (s : Str) : Option Nat :=
  if pfx (toL "\x7b\x7b#") s then
    ((kwAlt tag).find? fun kw =>
        pfx kw (s.drop 3) && wsAt ((s.drop 3).drop kw.length)).map
      fun kw => 4 + kw.length
  else none

/-- The close pattern of `findBlockEnd`: open braces, slash, one of the
alternation keywords, close braces. -/
def closeLen? (tag : Str) (s : Str) : Option Nat :=
  if pfx (toL "\x7b\x7b/") s then
    ((kwAlt tag).find? fun kw =>
        pfx kw (s.drop 3) && pfx (toL "\x7d\x7d") ((s.drop 3).drop kw.length)).map
      fun kw => 5 + kw.length
  else none

/-- Leftmost match of an anchored matcher over a string: index and
length of the first suffix position where the matcher succeeds
(`String.prototype.match` without flags). -/
def firstMatch (f : Str → Option Nat) : Str → Option (Nat × Nat)
  | [] => none
  | c :: rest =>
      match f (c :: rest) with
      | some l => some (0, l)
      | none => (firstMatch f rest).map fun p => (p.1 + 1, p.2)

/-- The scanning loop of `findBlockEnd`, one recursive call per loop
iteration, with the iteration count bounded by fuel (the loop advances
the position every iteration, so `content.length + 1` fuel always
suffices).  `pos` and `depth` are the loop variables of the source. -/
def fbeGo (content : Str) (tag : Str) : Nat → Nat → Nat → Str × Str
  | 0, _, _ => (content, [])
  | fuel + 1, pos, depth =>
      let remaining := content.drop pos
      match firstMatch (closeLen? tag) remaining with
      | none => (content, [])
      | some (closeIdx, closeLen) =>
          match firstMatch (openLen? tag) remaining with
          | some (openIdx, openLen) =>
              if openIdx < closeIdx then
                fbeGo content tag fuel (pos + openIdx + openLen) (depth + 1)
              else if depth = 1 then
                (content.take (pos + closeIdx), content.drop (pos + closeIdx + closeLen))
              else
                fbeGo content tag fuel (pos + closeIdx + closeLen) (depth - 1)
          | none =>
              if depth = 1 then
                (content.take (pos + closeIdx), content.drop (pos + closeIdx + closeLen))
              else
                fbeGo content tag fuel (pos + closeIdx + closeLen) (depth - 1)

/-- `findBlockEnd(content, tag)` from build.js: scan forward from
nesting depth 1 comparing the first open and first close match, and
return the body up to the zero-depth closing tag and the rest after it;
if no closing tag is found the whole content is the body and the rest
is empty. -/
def findBlockEnd (content : Str) (tag : Str) : Str × Str :=
  fbeGo content tag (content.length + 1) 0 1

/-! ## The else-split of an if block -/

/-- The close test of the else-scanning loop in the if branch of
`render`: an anchored match of a closing tag of one of the three block
kinds. -/
def closeTest3 (s : Str) : Bool :=
  pfx (toL "\x7b\x7b/if\x7d\x7d") s || pfx (toL "\x7b\x7b/each\x7d\x7d") s ||
    pfx (toL "\x7b\x7b/unless\x7d\x7d") s

/-- The character loop locating a top-level else marker in an if-block
body: at each position, increment the depth on an opening hash-brace,
decrement it on a closing tag of the three kinds, and report the
position when the depth is zero at an else marker.  The depth is an
integer, as in the source. -/
def elseScanGo : Str → Int → Nat → Option Nat
  | [], _, _ => none
  | c :: rest, depth, i =>
      let s := c :: rest
      let depth1 := if pfx (toL "\x7b\x7b#") s then depth + 1 else depth
      let depth2 := if closeTest3 s then depth1 - 1 else depth1
      if depth2 = 0 && pfx (toL "\x7b\x7belse\x7d\x7d") s then some i
      else elseScanGo rest depth2 (i + 1)

/-- Split an if-block body at the first top-level else marker, as the if
branch of `render` does; without such a marker the whole body is the
true branch and the else branch is empty. -/
def elseSplit (body : Str) : Str × Str :=
  match elseScanGo body 0 0 with
  | some i => (body.take i, body.drop (i + 8))
  | none => (body, [])

/-! ## The renderer -/

/-- A rendering context: the enumerable own fields of the JavaScript
context object. -/
abbrev Ctx := List (Str × Value)

/-- The partial registry: partial name to partial template text. -/
abbrev Partials := List (Str × Str)

/-- Own-key lookup `partials[name]` in the registry.  A name absent from
the registry is modeled as `none`; in JavaScript a plain-object lookup of
a name that collides with an inherited `Object.prototype` property (such
as `toString`) instead finds that inherited value, so statements about
absent names are restricted to names outside `objectProtoKeys`. -/
def lookupPartialText : Partials → Str → Option Str
  | [], _ => none
  | (k, v) :: rest, key =>
      if k == key then some v else lookupPartialText rest key

/-- The own property names of `Object.prototype`: a plain-object lookup
of any of these finds an inherited (truthy) value even when the key was
never assigned on the object itself. -/
def objectProtoKeys : List Str :=
  [toL "constructor", toL "hasOwnProperty", toL "isPrototypeOf",
   toL "propertyIsEnumerable", toL "toLocaleString", toL "toString",
   toL "valueOf", toL "__defineGetter__", toL "__defineSetter__",
   toL "__lookupGetter__", toL "__lookupSetter__", toL "__proto__"]

/-- The derived context of one each iteration: the enclosing context
extended (object spread, later keys shadowing earlier ones) with `this`,
the zero-based at-index, and the boolean at-first and at-last flags. -/
def itemContext (context : Ctx) (item : Value) (index : Nat) (len : Nat) : Ctx :=
  (toL "this", item) :: (toL "@index", .num index) ::
    (toL "@first", .bool (index == 0)) :: (toL "@last", .bool (index == len - 1)) :: context

/-- The warning text of a missing partial. -/
def warnMsg (name : Str) : Str :=
  toL "Warning: Partial \"" ++ name ++ toL "\" not found"

/-- Render each array element in order with the given per-element
renderer, concatenating outputs and warnings (`arr.map(...).flatten('')`). -/
def iterItems (f : Value → Nat → Option (Str × List Str)) :
    List Value → Nat → Option (Str × List Str)
  | [], _ => some ([], [])
  | x :: xs, i => do
      let a ← f x i
      let b ← iterItems f xs (i + 1)
      some (a.1 ++ b.1, a.2 ++ b.2)

/-- One iteration of the render loop of build.js, with `rec` standing
for the recursive calls (both the loop continuation and the recursion
into bodies and partials).  Faithful port, branch by branch: emit text
up to the next brace pair, then try in order the partial, each, if,
unless and variable patterns, falling back to emitting the two braces
literally. -/
def renderStep (rec : Str → Ctx → Partials → Option (Str × List Str))
    (template : Str) (context : Ctx) (partials : Partials) :
    Option (Str × List Str) :=
  if template.isEmpty then some ([], [])
  else
    match idxOfBraces template with
    | none => some (template, [])
    | some tagIdx =>
        let pre := template.take tagIdx
        let remaining := template.drop tagIdx
        match matchPartialTag remaining with
        | some (name, len) =>
            match lookupPartialText partials name with
            | some (c :: cs) => do
                let a ← rec (c :: cs) context partials
                let b ← rec (remaining.drop len) context partials
                some (pre ++ a.1 ++ b.1, a.2 ++ b.2)
            | _ => do
                let b ← rec (remaining.drop len) context partials
                some (pre ++ b.1, warnMsg name :: b.2)
        | none =>
        match matchEach remaining with
        | some (path, len) =>
            let br := findBlockEnd (remaining.drop len) (toL "each")
            match resolvePath (.obj context) path with
            | .arr xs => do
                let a ← iterItems
                  (fun item i => rec br.1 (itemContext context item i xs.length) partials)
                  xs 0
                let b ← rec br.2 context partials
                some (pre ++ a.1 ++ b.1, a.2 ++ b.2)
            | _ => do
                let b ← rec br.2 context partials
                some (pre ++ b.1, b.2)
        | none =>
        match matchIf remaining with
        | some (path, len) =>
            let br := findBlockEnd (remaining.drop len) (toL "if")
            let val := resolvePath (.obj context) path
            let sp := elseSplit br.1
            do
              let a ← rec (if truthy val then sp.1 else sp.2) context partials
              let b ← rec br.2 context partials
              some (pre ++ a.1 ++ b.1, a.2 ++ b.2)
        | none =>
        match matchUnless remaining with
        | some (path, len) =>
            let br := findBlockEnd (remaining.drop len) (toL "unless")
            let val := resolvePath (.obj context) path
            if truthy val then do
              let b ← rec br.2 context partials
              some (pre ++ b.1, b.2)
            else do
              let a ← rec br.1 context partials
              let b ← rec br.2 context partials
              some (pre ++ a.1 ++ b.1, a.2 ++ b.2)
        | none =>
        match matchVar remaining with
        | some (path, len) =>
            let val := resolvePath (.obj context) path
            let txt := if isUndef val || isNull val then [] else toDisplay val
            do
              let b ← rec (remaining.drop len) context partials
              some (pre ++ txt ++ b.1, b.2)
        | none => do
            let b ← rec (remaining.drop 2) context partials
            some (pre ++ '\x7b' :: '\x7b' :: b.1, b.2)

/-- `render(template, context, partials)` from build.js, with explicit
recursion fuel: fuel bounds the depth of nested recursive calls (loop
iterations, block bodies, partial inclusions); `none` means the fuel ran
out, which for partial-free templates never happens once the fuel
exceeds the template length. -/
def render : Nat → Str → Ctx → Partials → Option (Str × List Str)
  | 0, _, _, _ => none
  | fuel + 1, template, context, partials =>
      renderStep (render fuel) template context partials

/-- The three block kinds of the grammar. -/
def kinds : List Str := [toL "each", toL "if", toL "unless"]

/-! ## Basic lemmas: prefixes, takeWhile, character classes -/

theorem pfx_of {p s : Str} (h : pfx p s = true) : ∃ t, s = p ++ t := by
  induction p generalizing s with
  | nil => exact ⟨s, rfl⟩
  | cons a as ih =>
      cases s with
      | nil => simp [pfx] at h
      | cons b bs =>
          simp only [pfx, Bool.and_eq_true, beq_iff_eq] at h
          obtain ⟨rfl, h2⟩ := h
          obtain ⟨t, rfl⟩ := ih h2
          exact ⟨t, rfl⟩

theorem pfx_append (p t : Str) : pfx p (p ++ t) = true := by
  induction p with
  | nil => rfl
  | cons a as ih => simp [pfx, ih]

theorem takeWhile_append_all {p : Char → Bool} {l : Str} (r : Str)
    (h : ∀ c ∈ l, p c = true) :
    (l ++ r).takeWhile p = l ++ r.takeWhile p := by
  induction l with
  | nil => rfl
  | cons a as ih =>
      have ha : p a = true := h a (by simp)
      simp [List.takeWhile_cons, ha, ih fun c hc => h c (by simp [hc])]

theorem takeWhile_head_false {p : Char → Bool} {c : Char} (t : Str)
    (h : p c = false) : (c :: t).takeWhile p = [] := by
  simp [List.takeWhile_cons, h]

theorem isWsChar_cases {c : Char} (h : isWsChar c = true) :
    c = ' ' ∨ c = '\t' ∨ c = '\n' ∨ c = '\r' ∨ c = '\x0b' ∨ c = '\x0c' := by
  simp only [isWsChar, Bool.or_eq_true, beq_iff_eq] at h
  tauto

theorem isWsChar_not_pathChar {c : Char} (h : isWsChar c = true) :
    isPathChar c = false := by
  rcases isWsChar_cases h with rfl | rfl | rfl | rfl | rfl | rfl <;> decide

theorem isWsChar_not_wordChar {c : Char} (h : isWsChar c = true) :
    isWordChar c = false := by
  rcases isWsChar_cases h with rfl | rfl | rfl | rfl | rfl | rfl <;> decide

theorem isWsChar_ne_lbrace {c : Char} (h : isWsChar c = true) : c ≠ '\x7b' := by
  rcases isWsChar_cases h with rfl | rfl | rfl | rfl | rfl | rfl <;> decide

theorem isPathChar_not_ws {c : Char} (h : isPathChar c = true) :
    isWsChar c = false := by
  by_contra hc
  have := isWsChar_not_pathChar (c := c) (by revert hc; cases isWsChar c <;> simp)
  simp [this] at h

theorem isWordChar_not_ws {c : Char} (h : isWordChar c = true) :
    isWsChar c = false := by
  by_contra hc
  have := isWsChar_not_wordChar (c := c) (by revert hc; cases isWsChar c <;> simp)
  simp [this] at h

theorem dropWhile_head_false (p : Char → Bool) (l : Str) {c : Char} {cs : Str}
    (h : l.dropWhile p = c :: cs) : p c = false := by
  induction l with
  | nil => simp at h
  | cons a as ih =>
      by_cases ha : p a = true
      · rw [List.dropWhile_cons_of_pos ha] at h; exact ih h
      · rw [List.dropWhile_cons_of_neg ha] at h
        cases h; simpa using ha

theorem drop_takeWhile_length (p : Char → Bool) (l : Str) :
    l.drop (l.takeWhile p).length = l.dropWhile p := by
  calc l.drop (l.takeWhile p).length
      = (l.takeWhile p ++ l.dropWhile p).drop (l.takeWhile p).length := by
        rw [List.takeWhile_append_dropWhile]
    _ = l.dropWhile p := List.drop_left _ _

/-! ## Matcher characterizations -/

/-- A path accepted by the block regex class: non-empty, word chars and
dots only. -/
def validPath (p : Str) : Prop := p ≠ [] ∧ ∀ c ∈ p, isPathChar c = true

/-- A partial name accepted by the partial regex class: non-empty word
chars. -/
def validName (n : Str) : Prop := n ≠ [] ∧ ∀ c ∈ n, isWordChar c = true

instance (p : Str) : Decidable (validPath p) := by unfold validPath; infer_instance

instance (n : Str) : Decidable (validName n) := by unfold validName; infer_instance

theorem matchBlockOpen_space (kw p tail : Str) (hp : validPath p) :
    matchBlockOpen kw (toL "\x7b\x7b#" ++ kw ++ ' ' :: (p ++ toL "\x7d\x7d" ++ tail)) =
      some (p, kw.length + p.length + 6) := by
  obtain ⟨hne, hpc⟩ := hp
  obtain ⟨q, qs, rfl⟩ := List.exists_cons_of_ne_nil hne
  have hqws : isWsChar q = false := isPathChar_not_ws (hpc q (by simp))
  have h72 : toL "\x7d\x7d" = ['\x7d', '\x7d'] := rfl
  have hs : toL "\x7b\x7b#" ++ kw ++ ' ' :: (q :: qs ++ toL "\x7d\x7d" ++ tail) =
      (toL "\x7b\x7b#" ++ kw) ++ (' ' :: q :: (qs ++ '\x7d' :: '\x7d' :: tail)) := by
    simp [h72]
  have hlen : (toL "\x7b\x7b#" ++ kw).length = 3 + kw.length := by
    rw [List.length_append]; rfl
  have hdrop : (((toL "\x7b\x7b#" ++ kw)) ++
      (' ' :: q :: (qs ++ '\x7d' :: '\x7d' :: tail))).drop (3 + kw.length) =
      ' ' :: q :: (qs ++ '\x7d' :: '\x7d' :: tail) := by
    rw [← hlen]; exact List.drop_left _ _
  have htw : List.takeWhile isWsChar (' ' :: q :: (qs ++ '\x7d' :: '\x7d' :: tail)) = [' '] := by
    rw [List.takeWhile_cons_of_pos (by decide)]
    rw [takeWhile_head_false _ hqws]
  have hqr : q :: (qs ++ '\x7d' :: '\x7d' :: tail) = (q :: qs) ++ ('\x7d' :: '\x7d' :: tail) := by
    simp
  have htw2 : List.takeWhile isPathChar (q :: (qs ++ '\x7d' :: '\x7d' :: tail)) = q :: qs := by
    rw [hqr, takeWhile_append_all _ hpc, takeWhile_head_false _ (by decide)]
    simp
  have hdrop2 : (q :: (qs ++ '\x7d' :: '\x7d' :: tail)).drop (q :: qs).length =
      '\x7d' :: '\x7d' :: tail := by
    rw [hqr]; exact List.drop_left _ _
  have hpfx2 : pfx (toL "\x7d\x7d") ('\x7d' :: '\x7d' :: tail) = true := by
    have : '\x7d' :: '\x7d' :: tail = toL "\x7d\x7d" ++ tail := by simp [h72]
    rw [this]; exact pfx_append _ _
  rw [hs]
  simp only [matchBlockOpen, pfx_append, if_true, hdrop, htw, List.length_cons,
    List.length_nil, List.drop_succ_cons, List.drop_zero, htw2, hdrop2, hpfx2,
    List.drop_left, List.isEmpty_cons, Bool.false_eq_true, if_false,
    Option.some.injEq, Prod.mk.injEq, true_and]
  omega

theorem matchPartialTag_plain (name tail : Str) (hn : validName name) :
    matchPartialTag (toL "\x7b\x7b>" ++ name ++ toL "\x7d\x7d" ++ tail) =
      some (name, name.length + 5) := by
  obtain ⟨hne, hnc⟩ := hn
  obtain ⟨q, qs, rfl⟩ := List.exists_cons_of_ne_nil hne
  have hqws : isWsChar q = false := isWordChar_not_ws (hnc q (by simp))
  have h72 : toL "\x7d\x7d" = ['\x7d', '\x7d'] := rfl
  have hs : toL "\x7b\x7b>" ++ (q :: qs) ++ toL "\x7d\x7d" ++ tail =
      toL "\x7b\x7b>" ++ (q :: (qs ++ '\x7d' :: '\x7d' :: tail)) := by
    simp [h72]
  have hqr : q :: (qs ++ '\x7d' :: '\x7d' :: tail) = (q :: qs) ++ ('\x7d' :: '\x7d' :: tail) := by
    simp
  have htw : List.takeWhile isWsChar (q :: (qs ++ '\x7d' :: '\x7d' :: tail)) = [] :=
    takeWhile_head_false _ hqws
  have htw2 : List.takeWhile isWordChar (q :: (qs ++ '\x7d' :: '\x7d' :: tail)) = q :: qs := by
    rw [hqr, takeWhile_append_all _ hnc, takeWhile_head_false _ (by decide)]
    simp
  have hdrop2 : (q :: (qs ++ '\x7d' :: '\x7d' :: tail)).drop (q :: qs).length =
      '\x7d' :: '\x7d' :: tail := by
    rw [hqr]; exact List.drop_left _ _
  have htw3 : List.takeWhile isWsChar ('\x7d' :: '\x7d' :: tail) = [] :=
    takeWhile_head_false _ (by decide)
  have hpfx2 : pfx (toL "\x7d\x7d") ('\x7d' :: '\x7d' :: tail) = true := by
    have : '\x7d' :: '\x7d' :: tail = toL "\x7d\x7d" ++ tail := by simp [h72]
    rw [this]; exact pfx_append _ _
  have hdrop0 : (toL "\x7b\x7b>" ++ (q :: (qs ++ '\x7d' :: '\x7d' :: tail))).drop 3 =
      q :: (qs ++ '\x7d' :: '\x7d' :: tail) := by
    rw [show (3 : Nat) = (toL "\x7b\x7b>").length from rfl]
    exact List.drop_left _ _
  rw [hs]
  simp only [matchPartialTag, pfx_append, if_true, hdrop0, List.drop_succ_cons,
    List.drop_zero, htw, List.length_nil, List.length_cons, htw2, hdrop2, htw3, hpfx2,
    List.drop_left, List.isEmpty_cons, List.isEmpty_nil, Bool.false_eq_true, if_false,
    Option.some.injEq, Prod.mk.injEq, true_and]
  omega

theorem drop3_gt (X : Str) : (toL "\x7b\x7b>" ++ X).drop 3 = X := by
  rw [show (3 : Nat) = (toL "\x7b\x7b>").length from rfl]
  exact List.drop_left _ _

/-- Inversion of a successful partial-tag match: the string decomposes
into the brace-gt marker, a whitespace run, the name, a whitespace run,
the closing braces and a leftover. -/
theorem matchPartialTag_elim {s nm : Str} {ln : Nat}
    (h : matchPartialTag s = some (nm, ln)) :
    ∃ A W e, s = toL "\x7b\x7b>" ++ (A ++ nm ++ W ++ toL "\x7d\x7d" ++ e) ∧
      (∀ c ∈ A, isWsChar c = true) ∧ validName nm ∧ (∀ c ∈ W, isWsChar c = true) ∧
      ln = 3 + A.length + nm.length + W.length + 2 := by
  by_cases h0 : pfx (toL "\x7b\x7b>") s = true
  case neg =>
    rw [Bool.not_eq_true] at h0
    simp [matchPartialTag, h0] at h
  obtain ⟨t, rfl⟩ := pfx_of h0
  simp only [matchPartialTag, pfx_append, if_true, drop3_gt] at h
  rw [drop_takeWhile_length] at h
  set A := t.takeWhile isWsChar with hA
  set t1 := t.dropWhile isWsChar with ht1
  by_cases h1 : (t1.takeWhile isWordChar).isEmpty
  · rw [if_pos h1] at h; simp at h
  rw [if_neg h1] at h
  rw [drop_takeWhile_length] at h
  set nm1 := t1.takeWhile isWordChar with hnm1
  set t2 := t1.dropWhile isWordChar with ht2
  rw [drop_takeWhile_length] at h
  set W := t2.takeWhile isWsChar with hW
  set t3 := t2.dropWhile isWsChar with ht3
  by_cases h2 : pfx (toL "\x7d\x7d") t3 = true
  case neg =>
    rw [Bool.not_eq_true] at h2
    rw [h2] at h; simp at h
  rw [h2] at h
  simp only [if_true, Option.some.injEq, Prod.mk.injEq] at h
  obtain ⟨rfl, rfl⟩ := h
  obtain ⟨e, he⟩ := pfx_of h2
  refine ⟨A, W, e, ?_, ?_, ?_, ?_, rfl⟩
  · have d1 : t = A ++ t1 := (List.takeWhile_append_dropWhile ..).symm
    have d2 : t1 = nm1 ++ t2 := (List.takeWhile_append_dropWhile ..).symm
    have d3 : t2 = W ++ t3 := (List.takeWhile_append_dropWhile ..).symm
    rw [d1, d2, d3, he]
    simp
  · exact fun c hc => List.mem_takeWhile_imp hc
  · constructor
    · intro hc; rw [hc] at h1; simp at h1
    · exact fun c hc => List.mem_takeWhile_imp hc
  · exact fun c hc => List.mem_takeWhile_imp hc

/-- Construction of a partial-tag match from the decomposition. -/
theorem matchPartialTag_build (A nm W e : Str)
    (hA : ∀ c ∈ A, isWsChar c = true) (hnm : validName nm)
    (hW : ∀ c ∈ W, isWsChar c = true) :
    matchPartialTag (toL "\x7b\x7b>" ++ (A ++ nm ++ W ++ toL "\x7d\x7d" ++ e)) =
      some (nm, 3 + A.length + nm.length + W.length + 2) := by
  obtain ⟨hne, hnc⟩ := hnm
  obtain ⟨q, qs, rfl⟩ := List.exists_cons_of_ne_nil hne
  have hqws : isWsChar q = false := isWordChar_not_ws (hnc q (by simp))
  have h72 : toL "\x7d\x7d" = ['\x7d', '\x7d'] := rfl
  have hs : A ++ (q :: qs) ++ W ++ toL "\x7d\x7d" ++ e =
      A ++ (q :: (qs ++ (W ++ '\x7d' :: '\x7d' :: e))) := by simp [h72]
  have htwA : (A ++ (q :: (qs ++ (W ++ '\x7d' :: '\x7d' :: e)))).takeWhile isWsChar = A := by
    rw [takeWhile_append_all _ hA, takeWhile_head_false _ hqws]
    simp
  have hdropA : (A ++ (q :: (qs ++ (W ++ '\x7d' :: '\x7d' :: e)))).drop A.length =
      q :: (qs ++ (W ++ '\x7d' :: '\x7d' :: e)) := List.drop_left _ _
  have hWtail : List.takeWhile isWordChar (W ++ '\x7d' :: '\x7d' :: e) = [] := by
    cases W with
    | nil => exact takeWhile_head_false _ (by decide)
    | cons w ws =>
        rw [List.cons_append]
        exact takeWhile_head_false _ (isWsChar_not_wordChar (hW w (by simp)))
  have hqr : q :: (qs ++ (W ++ '\x7d' :: '\x7d' :: e)) =
      (q :: qs) ++ (W ++ '\x7d' :: '\x7d' :: e) := by simp
  have htwN : List.takeWhile isWordChar (q :: (qs ++ (W ++ '\x7d' :: '\x7d' :: e))) =
      q :: qs := by
    rw [hqr, takeWhile_append_all _ hnc, hWtail]
    simp
  have hdropN : (q :: (qs ++ (W ++ '\x7d' :: '\x7d' :: e))).drop (q :: qs).length =
      W ++ '\x7d' :: '\x7d' :: e := by
    rw [hqr]; exact List.drop_left _ _
  have htwW : (W ++ '\x7d' :: '\x7d' :: e).takeWhile isWsChar = W := by
    rw [takeWhile_append_all _ hW, takeWhile_head_false _ (by decide)]
    simp
  have hdropW : (W ++ '\x7d' :: '\x7d' :: e).drop W.length = '\x7d' :: '\x7d' :: e :=
    List.drop_left _ _
  have hpfx2 : pfx (toL "\x7d\x7d") ('\x7d' :: '\x7d' :: e) = true := by
    have : '\x7d' :: '\x7d' :: e = toL "\x7d\x7d" ++ e := by simp [h72]
    rw [this]; exact pfx_append _ _
  rw [hs]
  have hnmE : (q :: qs).isEmpty = false := rfl
  simp only [matchPartialTag, pfx_append, if_true, drop3_gt, htwA, hdropA, htwN, hdropN,
    htwW, hdropW, hpfx2, hnmE, Bool.false_eq_true, if_false, List.length_cons,
    List.drop_succ_cons, List.drop_left, Option.some.injEq, Prod.mk.injEq, true_and,
    List.isEmpty_cons]

/-- A partial-tag match survives appending more text to the string. -/
theorem matchPartialTag_extend {u nm : Str} {ln : Nat} (v : Str)
    (h : matchPartialTag u = some (nm, ln)) :
    matchPartialTag (u ++ v) = some (nm, ln) := by
  obtain ⟨A, W, e, rfl, hA, hnm, hW, rfl⟩ := matchPartialTag_elim h
  have : toL "\x7b\x7b>" ++ (A ++ nm ++ W ++ toL "\x7d\x7d" ++ e) ++ v =
      toL "\x7b\x7b>" ++ (A ++ nm ++ W ++ toL "\x7d\x7d" ++ (e ++ v)) := by simp
  rw [this]
  exact matchPartialTag_build A nm W (e ++ v) hA hnm hW

theorem dropHash (kw X : Str) :
    (toL "\x7b\x7b#" ++ kw ++ X).drop (3 + kw.length) = X := by
  have : toL "\x7b\x7b#" ++ kw ++ X = (toL "\x7b\x7b#" ++ kw) ++ X := by simp
  rw [this, show 3 + kw.length = (toL "\x7b\x7b#" ++ kw).length from by
    rw [List.length_append]; rfl]
  exact List.drop_left _ _

/-- Inversion of a successful block-open match: mandatory whitespace run,
a valid path, closing braces, leftover. -/
theorem matchBlockOpen_elim {kw s p : Str} {ln : Nat}
    (h : matchBlockOpen kw s = some (p, ln)) :
    ∃ W e, s = toL "\x7b\x7b#" ++ kw ++ (W ++ p ++ toL "\x7d\x7d" ++ e) ∧
      W ≠ [] ∧ (∀ c ∈ W, isWsChar c = true) ∧ validPath p ∧
      ln = 3 + kw.length + W.length + p.length + 2 := by
  by_cases h0 : pfx (toL "\x7b\x7b#" ++ kw) s = true
  case neg =>
    rw [Bool.not_eq_true] at h0
    simp [matchBlockOpen, h0] at h
  obtain ⟨t, rfl⟩ := pfx_of h0
  have hd : (toL "\x7b\x7b#" ++ kw ++ t).drop (3 + kw.length) = t := dropHash kw t
  have hassoc : (toL "\x7b\x7b#" ++ kw) ++ t = toL "\x7b\x7b#" ++ kw ++ t := by simp
  rw [hassoc] at h ⊢
  simp only [matchBlockOpen, pfx_append, hassoc, if_true, hd] at h
  rw [drop_takeWhile_length] at h
  set W := t.takeWhile isWsChar with hW
  set t1 := t.dropWhile isWsChar with ht1
  by_cases h1 : W.isEmpty
  · rw [if_pos h1] at h; simp at h
  rw [if_neg h1] at h
  by_cases h2 : (t1.takeWhile isPathChar).isEmpty
  · rw [if_pos h2] at h; simp at h
  rw [if_neg h2] at h
  rw [drop_takeWhile_length] at h
  set p1 := t1.takeWhile isPathChar with hp1
  set t2 := t1.dropWhile isPathChar with ht2
  by_cases h3 : pfx (toL "\x7d\x7d") t2 = true
  case neg =>
    rw [Bool.not_eq_true] at h3
    rw [h3] at h; simp at h
  rw [h3] at h
  simp only [if_true, Option.some.injEq, Prod.mk.injEq] at h
  obtain ⟨rfl, rfl⟩ := h
  obtain ⟨e, he⟩ := pfx_of h3
  refine ⟨W, e, ?_, ?_, ?_, ?_, rfl⟩
  · have d1 : t = W ++ t1 := (List.takeWhile_append_dropWhile ..).symm
    have d2 : t1 = p1 ++ t2 := (List.takeWhile_append_dropWhile ..).symm
    rw [d1, d2, he]
    simp
  · intro hc; rw [hc] at h1; simp at h1
  · exact fun c hc => List.mem_takeWhile_imp hc
  · constructor
    · intro hc; rw [hc] at h2; simp at h2
    · exact fun c hc => List.mem_takeWhile_imp hc

/-- A variable path accepted by the variable regex class: non-empty, word
chars, dots and at-signs. -/
def validVar (p : Str) : Prop := p ≠ [] ∧ ∀ c ∈ p, isVarChar c = true

theorem drop2_braces (X : Str) : (toL "\x7b\x7b" ++ X).drop 2 = X := by
  rw [show (2 : Nat) = (toL "\x7b\x7b").length from rfl]
  exact List.drop_left _ _

/-- Inversion of a successful variable match. -/
theorem matchVar_elim {s p : Str} {ln : Nat} (h : matchVar s = some (p, ln)) :
    ∃ e, s = toL "\x7b\x7b" ++ (p ++ toL "\x7d\x7d" ++ e) ∧ validVar p ∧
      ln = 2 + p.length + 2 := by
  by_cases h0 : pfx (toL "\x7b\x7b") s = true
  case neg =>
    rw [Bool.not_eq_true] at h0
    simp [matchVar, h0] at h
  obtain ⟨t, rfl⟩ := pfx_of h0
  simp only [matchVar, pfx_append, if_true, drop2_braces] at h
  rw [drop_takeWhile_length] at h
  set p1 := t.takeWhile isVarChar with hp1
  set t1 := t.dropWhile isVarChar with ht1
  by_cases h1 : p1.isEmpty
  · rw [if_pos h1] at h; simp at h
  rw [if_neg h1] at h
  by_cases h2 : pfx (toL "\x7d\x7d") t1 = true
  case neg =>
    rw [Bool.not_eq_true] at h2
    rw [h2] at h; simp at h
  rw [h2] at h
  simp only [if_true, Option.some.injEq, Prod.mk.injEq] at h
  obtain ⟨rfl, rfl⟩ := h
  obtain ⟨e, he⟩ := pfx_of h2
  refine ⟨e, ?_, ⟨?_, fun c hc => List.mem_takeWhile_imp hc⟩, rfl⟩
  · have d1 : t = p1 ++ t1 := (List.takeWhile_append_dropWhile ..).symm
    rw [d1, he]
    simp
  · intro hc; rw [hc] at h1; simp at h1

/-! ## The render loop, one branch at a time -/

theorem idxOfBraces_zero {s : Str} (h : pfx (toL "\x7b\x7b") s = true) :
    idxOfBraces s = some 0 := by
  obtain ⟨t, rfl⟩ := pfx_of h
  rw [show toL "\x7b\x7b" ++ t = '\x7b' :: ('\x7b' :: t) from rfl]
  unfold idxOfBraces
  rw [if_pos]
  exact pfx_append (toL "\x7b\x7b") t

theorem render_plain (f : Nat) {s : Str} (c : Ctx) (ps : Partials)
    (h : idxOfBraces s = none) : render (f + 1) s c ps = some (s, []) := by
  cases s with
  | nil => rfl
  | cons a t =>
      show renderStep (render f) (a :: t) c ps = some (a :: t, [])
      unfold renderStep
      rw [if_neg (by simp)]
      rw [h]

theorem render_nil (f : Nat) (c : Ctx) (ps : Partials) :
    render (f + 1) [] c ps = some ([], []) := rfl

theorem dropOpenTag (kw p tail : Str) :
    (toL "\x7b\x7b#" ++ kw ++ ' ' :: (p ++ toL "\x7d\x7d" ++ tail)).drop
      (kw.length + p.length + 6) = tail := by
  have hs : toL "\x7b\x7b#" ++ kw ++ ' ' :: (p ++ toL "\x7d\x7d" ++ tail) =
      (toL "\x7b\x7b#" ++ kw ++ [' '] ++ p ++ toL "\x7d\x7d") ++ tail := by simp
  have hl : (toL "\x7b\x7b#" ++ kw ++ [' '] ++ p ++ toL "\x7d\x7d").length =
      kw.length + p.length + 6 := by
    simp only [List.length_append]
    rw [show (toL "\x7b\x7b#").length = 3 from rfl,
      show (toL "\x7d\x7d").length = 2 from rfl,
      show ([' '] : Str).length = 1 from rfl]
    omega
  rw [hs, ← hl]
  exact List.drop_left _ _

theorem dropPartialRef (name tail : Str) :
    (toL "\x7b\x7b>" ++ name ++ toL "\x7d\x7d" ++ tail).drop (name.length + 5) = tail := by
  have hs : toL "\x7b\x7b>" ++ name ++ toL "\x7d\x7d" ++ tail =
      (toL "\x7b\x7b>" ++ name ++ toL "\x7d\x7d") ++ tail := by simp
  have hl : (toL "\x7b\x7b>" ++ name ++ toL "\x7d\x7d").length = name.length + 5 := by
    simp only [List.length_append]
    rw [show (toL "\x7b\x7b>").length = 3 from rfl,
      show (toL "\x7d\x7d").length = 2 from rfl]
    omega
  rw [hs, ← hl]
  exact List.drop_left _ _

/-- Unfolding of one render iteration on an if-block opening tag:
the body and rest come from the scanner, the body is split at the
top-level else, and the branch chosen by the truthiness of the resolved
path is rendered before the rest. -/
theorem render_step_if (f : Nat) (p tail : Str) (c : Ctx) (ps : Partials)
    (hp : validPath p) :
    render (f + 1) (toL "\x7b\x7b#" ++ toL "if" ++ ' ' :: (p ++ toL "\x7d\x7d" ++ tail)) c ps =
      (do
        let a ← render f (if truthy (resolvePath (.obj c) p)
            then (elseSplit (findBlockEnd tail (toL "if")).1).1
            else (elseSplit (findBlockEnd tail (toL "if")).1).2) c ps
        let b ← render f (findBlockEnd tail (toL "if")).2 c ps
        some (a.1 ++ b.1, a.2 ++ b.2)) := by
  have hidx : idxOfBraces
      (toL "\x7b\x7b#" ++ toL "if" ++ ' ' :: (p ++ toL "\x7d\x7d" ++ tail)) = some 0 :=
    idxOfBraces_zero rfl
  have hpart : matchPartialTag
      (toL "\x7b\x7b#" ++ toL "if" ++ ' ' :: (p ++ toL "\x7d\x7d" ++ tail)) = none := rfl
  have heach : matchEach
      (toL "\x7b\x7b#" ++ toL "if" ++ ' ' :: (p ++ toL "\x7d\x7d" ++ tail)) = none := rfl
  have hif : matchIf
      (toL "\x7b\x7b#" ++ toL "if" ++ ' ' :: (p ++ toL "\x7d\x7d" ++ tail)) =
      some (p, (toL "if").length + p.length + 6) := matchBlockOpen_space _ p tail hp
  show renderStep (render f)
      (toL "\x7b\x7b#" ++ toL "if" ++ ' ' :: (p ++ toL "\x7d\x7d" ++ tail)) c ps = _
  unfold renderStep
  rw [if_neg (by simp)]
  rw [hidx]
  simp only [hpart, heach, hif, List.take_zero, List.drop_zero, dropOpenTag,
    List.nil_append]

/-- Unfolding of one render iteration on an each-block opening tag: an
array value renders the body once per element under the derived context,
anything else contributes nothing; then the rest is rendered. -/
theorem render_step_each (f : Nat) (p tail : Str) (c : Ctx) (ps : Partials)
    (hp : validPath p) :
    render (f + 1) (toL "\x7b\x7b#" ++ toL "each" ++ ' ' :: (p ++ toL "\x7d\x7d" ++ tail)) c ps =
      (match resolvePath (.obj c) p with
       | .arr xs => do
          let a ← iterItems
            (fun item i =>
              render f (findBlockEnd tail (toL "each")).1 (itemContext c item i xs.length) ps)
            xs 0
          let b ← render f (findBlockEnd tail (toL "each")).2 c ps
          some (a.1 ++ b.1, a.2 ++ b.2)
       | _ => do
          let b ← render f (findBlockEnd tail (toL "each")).2 c ps
          some (b.1, b.2)) := by
  have hidx : idxOfBraces
      (toL "\x7b\x7b#" ++ toL "each" ++ ' ' :: (p ++ toL "\x7d\x7d" ++ tail)) = some 0 :=
    idxOfBraces_zero rfl
  have hpart : matchPartialTag
      (toL "\x7b\x7b#" ++ toL "each" ++ ' ' :: (p ++ toL "\x7d\x7d" ++ tail)) = none := rfl
  have heach : matchEach
      (toL "\x7b\x7b#" ++ toL "each" ++ ' ' :: (p ++ toL "\x7d\x7d" ++ tail)) =
      some (p, (toL "each").length + p.length + 6) := matchBlockOpen_space _ p tail hp
  show renderStep (render f)
      (toL "\x7b\x7b#" ++ toL "each" ++ ' ' :: (p ++ toL "\x7d\x7d" ++ tail)) c ps = _
  unfold renderStep
  rw [if_neg (by simp)]
  rw [hidx]
  simp only [hpart, heach, List.take_zero, List.drop_zero, dropOpenTag, List.nil_append]

/-- Unfolding of one render iteration on an unless-block opening tag:
the body renders only when the resolved value is falsy. -/
theorem render_step_unless (f : Nat) (p tail : Str) (c : Ctx) (ps : Partials)
    (hp : validPath p) :
    render (f + 1)
        (toL "\x7b\x7b#" ++ toL "unless" ++ ' ' :: (p ++ toL "\x7d\x7d" ++ tail)) c ps =
      (if truthy (resolvePath (.obj c) p) then do
        let b ← render f (findBlockEnd tail (toL "unless")).2 c ps
        some (b.1, b.2)
      else do
        let a ← render f (findBlockEnd tail (toL "unless")).1 c ps
        let b ← render f (findBlockEnd tail (toL "unless")).2 c ps
        some (a.1 ++ b.1, a.2 ++ b.2)) := by
  have hidx : idxOfBraces
      (toL "\x7b\x7b#" ++ toL "unless" ++ ' ' :: (p ++ toL "\x7d\x7d" ++ tail)) = some 0 :=
    idxOfBraces_zero rfl
  have hpart : matchPartialTag
      (toL "\x7b\x7b#" ++ toL "unless" ++ ' ' :: (p ++ toL "\x7d\x7d" ++ tail)) = none := rfl
  have heach : matchEach
      (toL "\x7b\x7b#" ++ toL "unless" ++ ' ' :: (p ++ toL "\x7d\x7d" ++ tail)) = none := rfl
  have hif : matchIf
      (toL "\x7b\x7b#" ++ toL "unless" ++ ' ' :: (p ++ toL "\x7d\x7d" ++ tail)) = none := rfl
  have hunless : matchUnless
      (toL "\x7b\x7b#" ++ toL "unless" ++ ' ' :: (p ++ toL "\x7d\x7d" ++ tail)) =
      some (p, (toL "unless").length + p.length + 6) := matchBlockOpen_space _ p tail hp
  show renderStep (render f)
      (toL "\x7b\x7b#" ++ toL "unless" ++ ' ' :: (p ++ toL "\x7d\x7d" ++ tail)) c ps = _
  unfold renderStep
  rw [if_neg (by simp)]
  rw [hidx]
  simp only [hpart, heach, hif, hunless, List.take_zero, List.drop_zero, dropOpenTag,
    List.nil_append]

/-- Unfolding of one render iteration on a partial-reference tag: a
registered non-empty partial text is rendered with the caller's context
and registry and prepended to the rendering of the rest; a missing (or
empty, hence falsy) registry entry contributes only a warning. -/
theorem render_step_partialRef (f : Nat) (name tail : Str) (c : Ctx) (ps : Partials)
    (hn : validName name) :
    render (f + 1) (toL "\x7b\x7b>" ++ name ++ toL "\x7d\x7d" ++ tail) c ps =
      (match lookupPartialText ps name with
       | some (c0 :: cs) => do
          let a ← render f (c0 :: cs) c ps
          let b ← render f tail c ps
          some (a.1 ++ b.1, a.2 ++ b.2)
       | _ => do
          let b ← render f tail c ps
          some (b.1, warnMsg name :: b.2)) := by
  have hidx : idxOfBraces (toL "\x7b\x7b>" ++ name ++ toL "\x7d\x7d" ++ tail) = some 0 :=
    idxOfBraces_zero rfl
  have hpart : matchPartialTag (toL "\x7b\x7b>" ++ name ++ toL "\x7d\x7d" ++ tail) =
      some (name, name.length + 5) := matchPartialTag_plain name tail hn
  show renderStep (render f) (toL "\x7b\x7b>" ++ name ++ toL "\x7d\x7d" ++ tail) c ps = _
  unfold renderStep
  simp only [show (toL "\x7b\x7b>" ++ name ++ toL "\x7d\x7d" ++ tail).isEmpty = false from rfl,
    Bool.false_eq_true, if_false]
  rw [hidx]
  simp only [hpart, List.take_zero, List.drop_zero, dropPartialRef, List.nil_append]

end PVTFC

namespace PVTFC

/-! ## Claim C1: if-block truthiness -/

/-- C1, counterexample.  The claim states that `(\x7b\x7b#if p\x7d\x7dA\x7b\x7b/if\x7d\x7d)`
yields the empty string when `p` resolves to an empty sequence.  The code
instead renders the true branch: JavaScript arrays are truthy, empty or
not, so the block yields `A`. -/
theorem ifBlock_emptyArr_cx :
    render 2 (toL "\x7b\x7b#if p\x7d\x7dA\x7b\x7b/if\x7d\x7d")
        [(toL "p", Value.arr [])] [] = some (toL "A", []) ∧
      toL "A" ≠ ([] : Str) := by
  constructor
  · decide
  · decide

/-- C1, amended: for every context and valid dot path `p`, the template
`(\x7b\x7b#if p\x7d\x7dA\x7b\x7b/if\x7d\x7d)` renders `A` exactly when the resolved value is
truthy, where the truthiness table is: `0`, the empty string, `false`,
`null`, `undefined` are falsy; numbers other than zero, non-empty
strings, `true`, and every sequence and mapping (including the empty
sequence and empty mapping) are truthy. -/
theorem ifBlock_truthiness (f : Nat) (p : Str) (c : Ctx) (ps : Partials)
    (hp : validPath p) :
    render (f + 2) (toL "\x7b\x7b#if " ++ p ++ toL "\x7d\x7dA\x7b\x7b/if\x7d\x7d") c ps =
      some (if truthy (resolvePath (.obj c) p) then toL "A" else [], []) := by
  have hb : findBlockEnd (toL "A\x7b\x7b/if\x7d\x7d") (toL "if") = (toL "A", []) := by decide
  have hsp : elseSplit (toL "A") = (toL "A", []) := by decide
  have hplain : idxOfBraces (toL "A") = none := by decide
  have hstr : toL "\x7b\x7b#if " ++ p ++ toL "\x7d\x7dA\x7b\x7b/if\x7d\x7d" =
      toL "\x7b\x7b#" ++ toL "if" ++ ' ' :: (p ++ toL "\x7d\x7d" ++ toL "A\x7b\x7b/if\x7d\x7d") := by
    simp only [List.append_assoc]; rfl
  rw [hstr]
  rw [show f + 2 = (f + 1) + 1 from rfl]
  rw [render_step_if (f + 1) p (toL "A\x7b\x7b/if\x7d\x7d") c ps hp, hb]
  cases htr : truthy (resolvePath (.obj c) p) with
  | false =>
      simp only [htr, Bool.false_eq_true, if_false, hsp, render_nil,
        render_plain f c ps hplain]
      rfl
  | true =>
      simp only [htr, if_true, hsp, render_nil, render_plain f c ps hplain]
      rfl

/-- C1, witness: a concrete instance of the amended theorem. -/
theorem ifBlock_truthiness_witness :
    validPath (toL "x") ∧
      render 2 (toL "\x7b\x7b#if x\x7d\x7dA\x7b\x7b/if\x7d\x7d") [(toL "x", Value.num 1)] [] =
        some (if truthy (resolvePath (.obj [(toL "x", Value.num 1)]) (toL "x"))
          then toL "A" else [], []) :=
  ⟨by decide, ifBlock_truthiness 0 (toL "x") [(toL "x", Value.num 1)] [] (by decide)⟩

end PVTFC

namespace PVTFC

/-! ## Claim C4: path resolution on missing or null intermediates -/

/-- The accumulator of `resolvePath` after the first `i` segments. -/
def pathPrefixVal (obj : Value) (p : Str) (i : Nat) : Value :=
  ((splitDot p).take i).foldl stepSeg obj

/-- C4, counterexample.  The claim states that resolution short-circuits
to an empty-string result the moment an intermediate accumulator is null
or undefined, with no further segment lookups.  The code instead keeps
folding over the remaining segments with the empty-string sentinel as
accumulator: on the empty context, `a.b.c` resolves to `undefined` (the
third lookup ran on the sentinel and produced `undefined` again), and
`a.b.length` resolves to the number `0` (the `length` of the sentinel),
neither of which is the empty string. -/
theorem resolvePath_missing_cx :
    resolvePath (.obj []) (toL "a.b.c") = .undef ∧
      resolvePath (.obj []) (toL "a.b.length") = .num 0 ∧
      Value.undef ≠ .str [] ∧ Value.num 0 ≠ .str [] := by
  refine ⟨rfl, rfl, ?_, ?_⟩ <;> intro h <;> exact Value.noConfusion h

/-- C4, amended: resolution is total (it is a Lean function) and never
short-circuits.  The moment the accumulator after `i` segments is null
or undefined, the reduce callback maps it to the empty-string sentinel -
consuming segment `i + 1` without looking it up - and the fold then
continues: the whole resolution equals folding the lookup callback over
the remaining segments starting from the sentinel, so the final result
is whatever those residual lookups produce (for instance `undefined` for
`a.b.c` on the empty context, or the number 0 for `a.b.length`, per the
counterexample), not necessarily the empty string. -/
theorem resolvePath_bad_intermediate (obj : Value) (p : Str) (i : Nat)
    (hi : i < (splitDot p).length)
    (hbad : pathPrefixVal obj p i = .null ∨ pathPrefixVal obj p i = .undef) :
    pathPrefixVal obj p (i + 1) = .str [] ∧
      resolvePath obj p =
        ((splitDot p).drop (i + 1)).foldl stepSeg (Value.str []) := by
  have hstep : ∀ k, stepSeg (pathPrefixVal obj p i) k = .str [] := by
    intro k
    rcases hbad with hb | hb <;> rw [hb] <;> rfl
  have htake : (splitDot p).take (i + 1) =
      (splitDot p).take i ++ [(splitDot p).get ⟨i, hi⟩] := by
    rw [List.take_succ]
    congr 1
    rw [List.getElem?_eq_getElem hi]
    rfl
  have h1 : pathPrefixVal obj p (i + 1) = .str [] := by
    show ((splitDot p).take (i + 1)).foldl stepSeg obj = _
    rw [htake, List.foldl_append]
    exact hstep _
  refine ⟨h1, ?_⟩
  rw [← h1]
  show (splitDot p).foldl stepSeg obj =
    ((splitDot p).drop (i + 1)).foldl stepSeg
      (((splitDot p).take (i + 1)).foldl stepSeg obj)
  rw [← List.foldl_append, List.take_append_drop]

/-- C4, witness: concrete instance of the amended theorem at the empty
context and the path `a.b.c`, whose first lookup already yields
`undefined`: the second segment is consumed by the sentinel and the
resolution continues over the final segment from the sentinel. -/
theorem resolvePath_bad_intermediate_witness :
    (1 < (splitDot (toL "a.b.c")).length ∧
        pathPrefixVal (.obj []) (toL "a.b.c") 1 = .undef) ∧
      (pathPrefixVal (.obj []) (toL "a.b.c") 2 = .str [] ∧
        resolvePath (.obj []) (toL "a.b.c") =
          ((splitDot (toL "a.b.c")).drop 2).foldl stepSeg (Value.str [])) :=
  ⟨⟨by decide, rfl⟩,
    resolvePath_bad_intermediate (.obj []) (toL "a.b.c") 1 (by decide)
      (Or.inr rfl)⟩

end PVTFC

namespace PVTFC

/-! ## Claim C7: partial references -/

/-- C7, counterexample.  The claim states a diagnostic is emitted only
when the name is absent from the registry, and that a present partial's
text is rendered.  The code tests the looked-up value for JavaScript
falsiness, so a partial that is present but registered with empty text
also triggers the warning and is not rendered. -/
theorem partialRef_empty_cx :
    lookupPartialText [(toL "p", [])] (toL "p") = some [] ∧
      render 2 (toL "\x7b\x7b>p\x7d\x7d") [] [(toL "p", [])] =
        some ([], [warnMsg (toL "p")]) := by
  constructor
  · decide
  · decide

/-- C7, amended, for a tag name that is registered or at least does not
collide with an inherited `Object.prototype` property name (an absent
colliding name such as `toString` finds the inherited truthy value in
the source and escapes the falsiness test, so it is excluded here): a
name registered with non-empty text is recursively rendered with the
caller's current unmodified context and the same registry, and the
result is appended in place of the tag before the rest; a name
registered with empty (hence falsy) text, or absent from the registry,
contributes no output, adds the warning diagnostic, and rendering
continues with the rest. -/
theorem partialRef_behavior (f : Nat) (name rest : Str) (c : Ctx) (ps : Partials)
    (hn : validName name)
    (hproto : lookupPartialText ps name = none → name ∉ objectProtoKeys) :
    render (f + 1) (toL "\x7b\x7b>" ++ name ++ toL "\x7d\x7d" ++ rest) c ps =
      (match lookupPartialText ps name with
       | some (c0 :: cs) => do
          let a ← render f (c0 :: cs) c ps
          let b ← render f rest c ps
          some (a.1 ++ b.1, a.2 ++ b.2)
       | _ => do
          let b ← render f rest c ps
          some (b.1, warnMsg name :: b.2)) :=
  render_step_partialRef f name rest c ps hn

/-- C7, witness: a registered one-character partial is rendered in place
of the tag. -/
theorem partialRef_behavior_witness :
    (validName (toL "p") ∧
        (lookupPartialText [(toL "p", toL "X")] (toL "p") = none →
          (toL "p") ∉ objectProtoKeys)) ∧
      render 2 (toL "\x7b\x7b>" ++ toL "p" ++ toL "\x7d\x7d" ++ []) []
        [(toL "p", toL "X")] = some (toL "X", []) := by
  refine ⟨⟨by decide, by decide⟩, ?_⟩
  rw [partialRef_behavior 1 (toL "p") [] [] [(toL "p", toL "X")] (by decide) (by decide)]
  decide

/-! ## Claim C9: at-sign paths are rejected by the block-tag patterns -/

/-- C9: the block-tag patterns accept only word characters and dots in
the path, so `(\x7b\x7b#if @first\x7d\x7d)` and `(\x7b\x7b#unless @last\x7d\x7d)` are not
recognized as blocks, while the variable pattern does accept the
at-names; an unrecognized `(\x7b\x7b#if @first\x7d\x7d)` makes the renderer emit the
two open braces literally and continue after them. -/
theorem atSign_block_tags_literal (f : Nat) (rest : Str) (c : Ctx) (ps : Partials) :
    matchIf (toL "\x7b\x7b#if @first\x7d\x7d") = none ∧
    matchUnless (toL "\x7b\x7b#unless @last\x7d\x7d") = none ∧
    matchVar (toL "\x7b\x7b@first\x7d\x7d") = some (toL "@first", 10) ∧
    matchVar (toL "\x7b\x7b@index\x7d\x7d") = some (toL "@index", 10) ∧
    matchVar (toL "\x7b\x7b@last\x7d\x7d") = some (toL "@last", 9) ∧
    render (f + 1) (toL "\x7b\x7b#if @first\x7d\x7d" ++ rest) c ps =
      (render f (toL "#if @first\x7d\x7d" ++ rest) c ps).map
        (fun b => ('\x7b' :: '\x7b' :: b.1, b.2)) := by
  refine ⟨by decide, by decide, by decide, by decide, by decide, ?_⟩
  show renderStep (render f) (toL "\x7b\x7b#if @first\x7d\x7d" ++ rest) c ps = _
  unfold renderStep
  simp only [show (toL "\x7b\x7b#if @first\x7d\x7d" ++ rest).isEmpty = false from rfl,
    Bool.false_eq_true, if_false]
  rw [@idxOfBraces_zero (toL "\x7b\x7b#if @first\x7d\x7d" ++ rest) rfl]
  simp only [show matchPartialTag (toL "\x7b\x7b#if @first\x7d\x7d" ++ rest) = none from rfl,
    show matchEach (toL "\x7b\x7b#if @first\x7d\x7d" ++ rest) = none from rfl,
    show matchIf (toL "\x7b\x7b#if @first\x7d\x7d" ++ rest) = none from rfl,
    show matchUnless (toL "\x7b\x7b#if @first\x7d\x7d" ++ rest) = none from rfl,
    show matchVar (toL "\x7b\x7b#if @first\x7d\x7d" ++ rest) = none from rfl,
    List.take_zero, List.drop_zero, List.nil_append]
  rw [show (toL "\x7b\x7b#if @first\x7d\x7d" ++ rest).drop 2 =
    toL "#if @first\x7d\x7d" ++ rest from rfl]
  cases render f (toL "#if @first\x7d\x7d" ++ rest) c ps <;> rfl

end PVTFC

namespace PVTFC

/-! ## Claim C5: each-block semantics -/

/-- Elements paired with their zero-based indices, starting at `k`. -/
def enumList {α : Type} : Nat → List α → List (Nat × α)
  | _, [] => []
  | k, x :: xs => (k, x) :: enumList (k + 1) xs

/-- Map an option-valued function over a list, failing if any element
fails, keeping order. -/
def mapOpt {α β : Type} (g : α → Option β) : List α → Option (List β)
  | [] => some []
  | x :: xs => do
      let y ← g x
      let ys ← mapOpt g xs
      some (y :: ys)

theorem iterItems_eq_mapOpt (g : Value → Nat → Option (Str × List Str)) :
    ∀ (xs : List Value) (k : Nat),
      iterItems g xs k =
        (mapOpt (fun e => g e.2 e.1) (enumList k xs)).map
          (fun l => ((l.map Prod.fst).flatten, (l.map Prod.snd).flatten)) := by
  intro xs
  induction xs with
  | nil => intro k; rfl
  | cons x xs ih =>
      intro k
      rw [show iterItems g (x :: xs) k = (do
          let a ← g x k
          let b ← iterItems g xs (k + 1)
          some (a.1 ++ b.1, a.2 ++ b.2)) from rfl]
      rw [ih (k + 1)]
      rw [show enumList k (x :: xs) = (k, x) :: enumList (k + 1) xs from rfl]
      rw [show mapOpt (fun e => g e.2 e.1) ((k, x) :: enumList (k + 1) xs) = (do
          let y ← g x k
          let ys ← mapOpt (fun e => g e.2 e.1) (enumList (k + 1) xs)
          some (y :: ys)) from rfl]
      cases g x k with
      | none => rfl
      | some a =>
          cases mapOpt (fun e => g e.2 e.1) (enumList (k + 1) xs) with
          | none => rfl
          | some l => rfl

end PVTFC

namespace PVTFC

theorem beq_false_of_ne {a b : Str} (h : a ≠ b) : (b == a) = false := by
  rw [beq_eq_false_iff_ne]
  exact fun hh => h hh.symm

/-- C5: on an each block whose path resolves to an array, the output is
the concatenation, in original element order, of rendering the body once
per element under the derived context (which binds `this`, the
zero-based at-index, boolean at-first/at-last, and keeps every other
outer binding visible), followed by the rendering of the rest; a value
that is not an array contributes no output for the whole block. -/
theorem eachBlock_semantics (f : Nat) (p content : Str) (c : Ctx) (ps : Partials)
    (hp : validPath p) :
    (render (f + 1) (toL "\x7b\x7b#each " ++ p ++ toL "\x7d\x7d" ++ content) c ps =
      (match resolvePath (.obj c) p with
       | .arr xs => do
          let pieces ← mapOpt (fun e =>
            render f (findBlockEnd content (toL "each")).1
              (itemContext c e.2 e.1 xs.length) ps) (enumList 0 xs)
          let b ← render f (findBlockEnd content (toL "each")).2 c ps
          some ((pieces.map Prod.fst).flatten ++ b.1, (pieces.map Prod.snd).flatten ++ b.2)
       | _ => do
          let b ← render f (findBlockEnd content (toL "each")).2 c ps
          some (b.1, b.2))) ∧
    (∀ (item : Value) (i n : Nat),
      lookupField (itemContext c item i n) (toL "this") = item ∧
      lookupField (itemContext c item i n) (toL "@index") = .num i ∧
      lookupField (itemContext c item i n) (toL "@first") = .bool (i == 0) ∧
      lookupField (itemContext c item i n) (toL "@last") = .bool (i == n - 1) ∧
      ∀ k : Str, k ≠ toL "this" → k ≠ toL "@index" → k ≠ toL "@first" →
        k ≠ toL "@last" → lookupField (itemContext c item i n) k = lookupField c k) := by
  constructor
  · have hstr : toL "\x7b\x7b#each " ++ p ++ toL "\x7d\x7d" ++ content =
        toL "\x7b\x7b#" ++ toL "each" ++ ' ' :: (p ++ toL "\x7d\x7d" ++ content) := by
      simp only [List.append_assoc]; rfl
    rw [hstr, render_step_each f p content c ps hp]
    cases hv : resolvePath (.obj c) p with
    | arr xs =>
        simp only [iterItems_eq_mapOpt]
        cases mapOpt (fun e =>
            render f (findBlockEnd content (toL "each")).1
              (itemContext c e.2 e.1 xs.length) ps) (enumList 0 xs) with
        | none => rfl
        | some l =>
            cases render f (findBlockEnd content (toL "each")).2 c ps with
            | none => rfl
            | some b => rfl
    | null => rfl
    | undef => rfl
    | bool b => rfl
    | num n => rfl
    | str s => rfl
    | obj o => rfl
  · intro item i n
    refine ⟨rfl, rfl, rfl, rfl, ?_⟩
    intro k h1 h2 h3 h4
    simp only [itemContext, lookupField, beq_false_of_ne h1, beq_false_of_ne h2,
      beq_false_of_ne h3, beq_false_of_ne h4, Bool.false_eq_true, if_false]

/-- C5, witness: two elements render the one-character body twice, in
order. -/
theorem eachBlock_semantics_witness :
    validPath (toL "xs") ∧
      render 2 (toL "\x7b\x7b#each " ++ toL "xs" ++ toL "\x7d\x7d" ++ toL "Z\x7b\x7b/each\x7d\x7d")
          [(toL "xs", Value.arr [Value.num 7, Value.num 8])] [] =
        some (toL "ZZ", []) := by
  constructor
  · decide
  · rw [(eachBlock_semantics 1 (toL "xs") (toL "Z\x7b\x7b/each\x7d\x7d")
        [(toL "xs", Value.arr [Value.num 7, Value.num 8])] [] (by decide)).1]
    decide

end PVTFC

namespace PVTFC

/-! ## Claims C3 and C6: the block scanner against the declarative
depth-counting scan -/

/-- The declarative scan from the specification: walk the content one
position at a time keeping a nesting depth that starts at 1; every
opening tag of any of the three block kinds increments it, every closing
tag of any of the three kinds decrements it, and the first closing tag
reached at depth 1 is the block's zero-depth closing tag.  Returns its
position and length. -/
def depthScan (tag : Str) : Str → Nat → Option (Nat × Nat)
  | [], _ => none
  | c :: rest, depth =>
      match closeLen? tag (c :: rest) with
      | some l =>
          if depth = 1 then some (0, l)
          else (depthScan tag rest (depth - 1)).map fun il => (il.1 + 1, il.2)
      | none =>
          match openLen? tag (c :: rest) with
          | some _ => (depthScan tag rest (depth + 1)).map fun il => (il.1 + 1, il.2)
          | none => (depthScan tag rest depth).map fun il => (il.1 + 1, il.2)

theorem firstMatch_some {f : Str → Option Nat} {s : Str} {i l : Nat}
    (h : firstMatch f s = some (i, l)) :
    f (s.drop i) = some l ∧ ∀ j, j < i → f (s.drop j) = none := by
  induction s generalizing i with
  | nil => simp [firstMatch] at h
  | cons c rest ih =>
      rw [show firstMatch f (c :: rest) = (match f (c :: rest) with
        | some l => some (0, l)
        | none => (firstMatch f rest).map fun p => (p.1 + 1, p.2)) from rfl] at h
      cases hf : f (c :: rest) with
      | some l0 =>
          rw [hf] at h
          cases h
          exact ⟨hf, fun j hj => absurd hj (by omega)⟩
      | none =>
          rw [hf] at h
          cases hm : firstMatch f rest with
          | none => rw [hm] at h; cases h
          | some p =>
              rw [hm] at h
              cases h
              obtain ⟨h1, h2⟩ := ih hm
              refine ⟨h1, ?_⟩
              intro j hj
              cases j with
              | zero => exact hf
              | succ j' => exact h2 j' (by omega)

theorem firstMatch_none {f : Str → Option Nat} (hnil : f [] = none) {s : Str}
    (h : firstMatch f s = none) : ∀ j, f (s.drop j) = none := by
  induction s with
  | nil => intro j; simpa using hnil
  | cons c rest ih =>
      rw [show firstMatch f (c :: rest) = (match f (c :: rest) with
        | some l => some (0, l)
        | none => (firstMatch f rest).map fun p => (p.1 + 1, p.2)) from rfl] at h
      cases hf : f (c :: rest) with
      | some l0 => rw [hf] at h; cases h
      | none =>
          rw [hf] at h
          cases hm : firstMatch f rest with
          | some p => rw [hm] at h; cases h
          | none =>
              intro j
              cases j with
              | zero => exact hf
              | succ j' => exact ih hm j'

theorem closeLen?_nil (tag : Str) : closeLen? tag [] = none := rfl

theorem openLen?_nil (tag : Str) : openLen? tag [] = none := rfl

theorem drop3_hash (X : Str) : (toL "\x7b\x7b#" ++ X).drop 3 = X := by
  rw [show (3 : Nat) = (toL "\x7b\x7b#").length from rfl]
  exact List.drop_left _ _

theorem drop3_slash (X : Str) : (toL "\x7b\x7b/" ++ X).drop 3 = X := by
  rw [show (3 : Nat) = (toL "\x7b\x7b/").length from rfl]
  exact List.drop_left _ _

theorem kwAlt_mem_kinds {tag kw : Str} (htag : tag ∈ kinds) (h : kw ∈ kwAlt tag) :
    kw ∈ kinds := by
  simp only [kwAlt, List.mem_cons, List.not_mem_nil, or_false] at h
  rcases h with rfl | rfl | rfl | rfl
  · exact htag
  · simp [kinds]
  · simp [kinds]
  · simp [kinds]

/-- Inversion of a successful open-pattern match. -/
theorem openLen?_elim {tag s : Str} {l : Nat} (h : openLen? tag s = some l)
    (htag : tag ∈ kinds) :
    ∃ kw w t, kw ∈ kinds ∧ l = 4 + kw.length ∧ isWsChar w = true ∧
      s = (toL "\x7b\x7b#" ++ kw) ++ w :: t := by
  by_cases h0 : pfx (toL "\x7b\x7b#") s = true
  case neg =>
    rw [Bool.not_eq_true] at h0
    simp [openLen?, h0] at h
  obtain ⟨r, rfl⟩ := pfx_of h0
  simp only [openLen?, pfx_append, if_true, drop3_hash, Option.map_eq_some'] at h
  obtain ⟨kw, hfind, hl⟩ := h
  have hmem : kw ∈ kwAlt tag := List.mem_of_find?_eq_some hfind
  have hpred := List.find?_some hfind
  simp only [Bool.and_eq_true] at hpred
  obtain ⟨hkw, hws⟩ := hpred
  obtain ⟨t0, rfl⟩ := pfx_of hkw
  rw [List.drop_left] at hws
  cases t0 with
  | nil => simp [wsAt] at hws
  | cons w t =>
      refine ⟨kw, w, t, kwAlt_mem_kinds htag hmem, hl.symm, ?_, by simp⟩
      simpa [wsAt] using hws

/-- Inversion of a successful close-pattern match. -/
theorem closeLen?_elim {tag s : Str} {l : Nat} (h : closeLen? tag s = some l)
    (htag : tag ∈ kinds) :
    ∃ kw t, kw ∈ kinds ∧ l = 5 + kw.length ∧
      s = (toL "\x7b\x7b/" ++ kw) ++ toL "\x7d\x7d" ++ t := by
  by_cases h0 : pfx (toL "\x7b\x7b/") s = true
  case neg =>
    rw [Bool.not_eq_true] at h0
    simp [closeLen?, h0] at h
  obtain ⟨r, rfl⟩ := pfx_of h0
  simp only [closeLen?, pfx_append, if_true, drop3_slash, Option.map_eq_some'] at h
  obtain ⟨kw, hfind, hl⟩ := h
  have hmem : kw ∈ kwAlt tag := List.mem_of_find?_eq_some hfind
  have hpred := List.find?_some hfind
  simp only [Bool.and_eq_true] at hpred
  obtain ⟨hkw, hcl⟩ := hpred
  obtain ⟨t0, rfl⟩ := pfx_of hkw
  rw [List.drop_left] at hcl
  obtain ⟨t, rfl⟩ := pfx_of hcl
  exact ⟨kw, t, kwAlt_mem_kinds htag hmem, hl.symm, by simp⟩

end PVTFC

namespace PVTFC

theorem pfx_braces_first {a : Char} {t : Str}
    (h : pfx (toL "\x7b\x7b") (a :: t) = true) : a = '\x7b' := by
  obtain ⟨u, hu⟩ := pfx_of h
  cases hu
  rfl

theorem pfx_braces_second {a b : Char} {t : Str}
    (h : pfx (toL "\x7b\x7b") (a :: b :: t) = true) : b = '\x7b' := by
  obtain ⟨u, hu⟩ := pfx_of h
  cases hu
  rfl

theorem pfx_braces_of_hash {s : Str} (h : pfx (toL "\x7b\x7b#") s = true) :
    pfx (toL "\x7b\x7b") s = true := by
  obtain ⟨t, rfl⟩ := pfx_of h
  have : toL "\x7b\x7b#" ++ t = toL "\x7b\x7b" ++ ('#' :: t) := rfl
  rw [this]
  exact pfx_append _ _

theorem pfx_braces_of_slash {s : Str} (h : pfx (toL "\x7b\x7b/") s = true) :
    pfx (toL "\x7b\x7b") s = true := by
  obtain ⟨t, rfl⟩ := pfx_of h
  have : toL "\x7b\x7b/" ++ t = toL "\x7b\x7b" ++ ('/' :: t) := rfl
  rw [this]
  exact pfx_append _ _

/-- Without two open braces at a position, neither tag pattern matches
there. -/
theorem none_of_no_braces {tag s : Str} (h : ¬ pfx (toL "\x7b\x7b") s = true) :
    openLen? tag s = none ∧ closeLen? tag s = none := by
  constructor
  · unfold openLen?
    rw [if_neg (fun hc => h (pfx_braces_of_hash hc))]
  · unfold closeLen?
    rw [if_neg (fun hc => h (pfx_braces_of_slash hc))]

/-- No position strictly inside a matched open tag carries two open
braces. -/
theorem open_shadow {tag s : Str} {l : Nat} (h : openLen? tag s = some l)
    (htag : tag ∈ kinds) :
    ∀ j, 1 ≤ j → j < l → ¬ pfx (toL "\x7b\x7b") (s.drop j) = true := by
  obtain ⟨kw, w, t, hkw, rfl, hw, rfl⟩ := openLen?_elim h htag
  intro j hj1 hj2 hc
  simp only [kinds, List.mem_cons, List.not_mem_nil, or_false] at hkw
  rcases hkw with rfl | rfl | rfl
  · rw [show (4 : Nat) + (toL "each").length = 8 from rfl] at hj2
    interval_cases j
    · exact absurd (pfx_braces_second hc) (by decide)
    · exact absurd (pfx_braces_first hc) (by decide)
    · exact absurd (pfx_braces_first hc) (by decide)
    · exact absurd (pfx_braces_first hc) (by decide)
    · exact absurd (pfx_braces_first hc) (by decide)
    · exact absurd (pfx_braces_first hc) (by decide)
    · exact absurd (pfx_braces_first hc) (isWsChar_ne_lbrace hw)
  · rw [show (4 : Nat) + (toL "if").length = 6 from rfl] at hj2
    interval_cases j
    · exact absurd (pfx_braces_second hc) (by decide)
    · exact absurd (pfx_braces_first hc) (by decide)
    · exact absurd (pfx_braces_first hc) (by decide)
    · exact absurd (pfx_braces_first hc) (by decide)
    · exact absurd (pfx_braces_first hc) (isWsChar_ne_lbrace hw)
  · rw [show (4 : Nat) + (toL "unless").length = 10 from rfl] at hj2
    interval_cases j
    · exact absurd (pfx_braces_second hc) (by decide)
    · exact absurd (pfx_braces_first hc) (by decide)
    · exact absurd (pfx_braces_first hc) (by decide)
    · exact absurd (pfx_braces_first hc) (by decide)
    · exact absurd (pfx_braces_first hc) (by decide)
    · exact absurd (pfx_braces_first hc) (by decide)
    · exact absurd (pfx_braces_first hc) (by decide)
    · exact absurd (pfx_braces_first hc) (by decide)
    · exact absurd (pfx_braces_first hc) (isWsChar_ne_lbrace hw)

/-- No position strictly inside a matched close tag carries two open
braces. -/
theorem close_shadow {tag s : Str} {l : Nat} (h : closeLen? tag s = some l)
    (htag : tag ∈ kinds) :
    ∀ j, 1 ≤ j → j < l → ¬ pfx (toL "\x7b\x7b") (s.drop j) = true := by
  obtain ⟨kw, t, hkw, rfl, rfl⟩ := closeLen?_elim h htag
  intro j hj1 hj2 hc
  simp only [kinds, List.mem_cons, List.not_mem_nil, or_false] at hkw
  rcases hkw with rfl | rfl | rfl
  · rw [show (5 : Nat) + (toL "each").length = 9 from rfl] at hj2
    interval_cases j
    · exact absurd (pfx_braces_second hc) (by decide)
    · exact absurd (pfx_braces_first hc) (by decide)
    · exact absurd (pfx_braces_first hc) (by decide)
    · exact absurd (pfx_braces_first hc) (by decide)
    · exact absurd (pfx_braces_first hc) (by decide)
    · exact absurd (pfx_braces_first hc) (by decide)
    · exact absurd (pfx_braces_first hc) (by decide)
    · exact absurd (pfx_braces_first hc) (by decide)
  · rw [show (5 : Nat) + (toL "if").length = 7 from rfl] at hj2
    interval_cases j
    · exact absurd (pfx_braces_second hc) (by decide)
    · exact absurd (pfx_braces_first hc) (by decide)
    · exact absurd (pfx_braces_first hc) (by decide)
    · exact absurd (pfx_braces_first hc) (by decide)
    · exact absurd (pfx_braces_first hc) (by decide)
    · exact absurd (pfx_braces_first hc) (by decide)
  · rw [show (5 : Nat) + (toL "unless").length = 11 from rfl] at hj2
    interval_cases j
    · exact absurd (pfx_braces_second hc) (by decide)
    · exact absurd (pfx_braces_first hc) (by decide)
    · exact absurd (pfx_braces_first hc) (by decide)
    · exact absurd (pfx_braces_first hc) (by decide)
    · exact absurd (pfx_braces_first hc) (by decide)
    · exact absurd (pfx_braces_first hc) (by decide)
    · exact absurd (pfx_braces_first hc) (by decide)
    · exact absurd (pfx_braces_first hc) (by decide)
    · exact absurd (pfx_braces_first hc) (by decide)
    · exact absurd (pfx_braces_first hc) (by decide)

end PVTFC

namespace PVTFC

theorem depthScan_nil (tag : Str) (d : Nat) : depthScan tag [] d = none := rfl

theorem depthScan_close_stop {tag s : Str} {l : Nat}
    (hc : closeLen? tag s = some l) :
    depthScan tag s 1 = some (0, l) := by
  cases s with
  | nil => rw [closeLen?_nil] at hc; cases hc
  | cons c rest =>
      show (match closeLen? tag (c :: rest) with
        | some l => if 1 = 1 then some ((0 : Nat), l)
            else (depthScan tag rest (1 - 1)).map fun (il : Nat × Nat) => (il.1 + 1, il.2)
        | none =>
          match openLen? tag (c :: rest) with
          | some _ => (depthScan tag rest (1 + 1)).map fun (il : Nat × Nat) => (il.1 + 1, il.2)
          | none => (depthScan tag rest 1).map fun (il : Nat × Nat) => (il.1 + 1, il.2)) = _
      rw [hc]
      simp

theorem depthScan_close_cont {tag : Str} {c : Char} {rest : Str} {l d : Nat}
    (hc : closeLen? tag (c :: rest) = some l) (hd : d ≠ 1) :
    depthScan tag (c :: rest) d =
      (depthScan tag rest (d - 1)).map fun il => (il.1 + 1, il.2) := by
  show (match closeLen? tag (c :: rest) with
    | some l => if d = 1 then some ((0 : Nat), l)
        else (depthScan tag rest (d - 1)).map fun (il : Nat × Nat) => (il.1 + 1, il.2)
    | none =>
      match openLen? tag (c :: rest) with
      | some _ => (depthScan tag rest (d + 1)).map fun (il : Nat × Nat) => (il.1 + 1, il.2)
      | none => (depthScan tag rest d).map fun (il : Nat × Nat) => (il.1 + 1, il.2)) = _
  rw [hc]
  simp [hd]

theorem depthScan_open {tag : Str} {c : Char} {rest : Str} {l d : Nat}
    (hcn : closeLen? tag (c :: rest) = none) (ho : openLen? tag (c :: rest) = some l) :
    depthScan tag (c :: rest) d =
      (depthScan tag rest (d + 1)).map fun il => (il.1 + 1, il.2) := by
  show (match closeLen? tag (c :: rest) with
    | some l => if d = 1 then some ((0 : Nat), l)
        else (depthScan tag rest (d - 1)).map fun (il : Nat × Nat) => (il.1 + 1, il.2)
    | none =>
      match openLen? tag (c :: rest) with
      | some _ => (depthScan tag rest (d + 1)).map fun (il : Nat × Nat) => (il.1 + 1, il.2)
      | none => (depthScan tag rest d).map fun (il : Nat × Nat) => (il.1 + 1, il.2)) = _
  rw [hcn, ho]

theorem depthScan_step {tag : Str} {c : Char} {rest : Str} {d : Nat}
    (hcn : closeLen? tag (c :: rest) = none) (hon : openLen? tag (c :: rest) = none) :
    depthScan tag (c :: rest) d =
      (depthScan tag rest d).map fun il => (il.1 + 1, il.2) := by
  show (match closeLen? tag (c :: rest) with
    | some l => if d = 1 then some ((0 : Nat), l)
        else (depthScan tag rest (d - 1)).map fun (il : Nat × Nat) => (il.1 + 1, il.2)
    | none =>
      match openLen? tag (c :: rest) with
      | some _ => (depthScan tag rest (d + 1)).map fun (il : Nat × Nat) => (il.1 + 1, il.2)
      | none => (depthScan tag rest d).map fun (il : Nat × Nat) => (il.1 + 1, il.2)) = _
  rw [hcn, hon]

/-- A scan over a region without tag matches only shifts the reported
index. -/
theorem depthScan_skip (tag : Str) :
    ∀ (k : Nat) (s : Str) (d : Nat),
      (∀ j, j < k → closeLen? tag (s.drop j) = none ∧ openLen? tag (s.drop j) = none) →
      depthScan tag s d = (depthScan tag (s.drop k) d).map fun il => (il.1 + k, il.2) := by
  intro k
  induction k with
  | zero =>
      intro s d _
      rw [List.drop_zero]
      cases depthScan tag s d with
      | none => rfl
      | some il => simp
  | succ k ih =>
      intro s d h
      cases s with
      | nil =>
          rw [List.drop_nil, depthScan_nil]
          rfl
      | cons c rest =>
          obtain ⟨hcn, hon⟩ := h 0 (by omega)
          rw [List.drop_zero] at hcn hon
          rw [depthScan_step hcn hon]
          rw [ih rest d (fun j hj => h (j + 1) (by omega))]
          rw [show (c :: rest).drop (k + 1) = rest.drop k from rfl]
          cases depthScan tag (rest.drop k) d with
          | none => rfl
          | some il => simp; omega

/-- A scan over content with no close-tag match anywhere finds nothing. -/
theorem depthScan_no_close {tag : Str} :
    ∀ (s : Str) (d : Nat), (∀ j, closeLen? tag (s.drop j) = none) →
      depthScan tag s d = none := by
  intro s
  induction s with
  | nil => intro d _; rfl
  | cons c rest ih =>
      intro d h
      have h0 := h 0
      rw [List.drop_zero] at h0
      cases ho : openLen? tag (c :: rest) with
      | some l =>
          rw [depthScan_open h0 ho, ih (d + 1) (fun j => h (j + 1))]
          rfl
      | none =>
          rw [depthScan_step h0 ho, ih d (fun j => h (j + 1))]
          rfl

end PVTFC

namespace PVTFC

theorem closeLen?_pos {tag s : Str} {l : Nat} (h : closeLen? tag s = some l)
    (htag : tag ∈ kinds) : 1 ≤ l := by
  obtain ⟨kw, t, _, rfl, _⟩ := closeLen?_elim h htag
  omega

theorem openLen?_pos {tag s : Str} {l : Nat} (h : openLen? tag s = some l)
    (htag : tag ∈ kinds) : 1 ≤ l := by
  obtain ⟨kw, w, t, _, rfl, _⟩ := openLen?_elim h htag
  omega

/-- Scanning up to a leftmost close match at depth 1 stops there; at
greater depth it decrements and continues after the close tag. -/
theorem depthScan_at_close {tag : Str} (htag : tag ∈ kinds) {s : Str} {ci cl depth : Nat}
    (hcat : closeLen? tag (s.drop ci) = some cl)
    (hnone : ∀ j, j < ci → closeLen? tag (s.drop j) = none ∧ openLen? tag (s.drop j) = none) :
    depthScan tag s depth =
      if depth = 1 then some (ci, cl)
      else (depthScan tag (s.drop (ci + cl)) (depth - 1)).map
        fun (il : Nat × Nat) => (il.1 + (ci + cl), il.2) := by
  rw [depthScan_skip tag ci s depth hnone]
  cases hr : s.drop ci with
  | nil => rw [hr, closeLen?_nil] at hcat; cases hcat
  | cons c rest =>
      rw [hr] at hcat
      by_cases hd1 : depth = 1
      · subst hd1
        rw [depthScan_close_stop hcat]
        simp
      · rw [depthScan_close_cont hcat hd1, if_neg hd1]
        have hclpos : 1 ≤ cl := closeLen?_pos hcat htag
        have hshadow := close_shadow hcat htag
        have hskip : ∀ j, j < cl - 1 →
            closeLen? tag (rest.drop j) = none ∧ openLen? tag (rest.drop j) = none := by
          intro j hj
          have : rest.drop j = (c :: rest).drop (1 + j) := by
            rw [show (1 + j) = j + 1 from by omega]
            rfl
          rw [this]
          have hnb := @none_of_no_braces tag ((c :: rest).drop (1 + j))
            (hshadow (1 + j) (by omega) (by omega))
          exact ⟨hnb.2, hnb.1⟩
        rw [depthScan_skip tag (cl - 1) rest (depth - 1) hskip]
        have hde : rest.drop (cl - 1) = s.drop (ci + cl) := by
          have h1 : rest = s.drop (ci + 1) := by
            have : s.drop (ci + 1) = (s.drop ci).drop 1 := by
              rw [List.drop_drop]
            rw [this, hr]
            rfl
          rw [h1, List.drop_drop]
          congr 1
          omega
        rw [hde]
        cases depthScan tag (s.drop (ci + cl)) (depth - 1) with
        | none => rfl
        | some il =>
            obtain ⟨i2, l2⟩ := il
            simp only [Option.map_map, Option.map_some', Function.comp_apply,
              Option.some.injEq, Prod.mk.injEq]
            exact ⟨by omega, trivial⟩

/-- Scanning up to a leftmost open match increments the depth and
continues after the open tag. -/
theorem depthScan_at_open {tag : Str} (htag : tag ∈ kinds) {s : Str} {oi ol depth : Nat}
    (hoat : openLen? tag (s.drop oi) = some ol)
    (hcnone : closeLen? tag (s.drop oi) = none)
    (hnone : ∀ j, j < oi → closeLen? tag (s.drop j) = none ∧ openLen? tag (s.drop j) = none) :
    depthScan tag s depth =
      (depthScan tag (s.drop (oi + ol)) (depth + 1)).map
        fun (il : Nat × Nat) => (il.1 + (oi + ol), il.2) := by
  rw [depthScan_skip tag oi s depth hnone]
  cases hr : s.drop oi with
  | nil => rw [hr, openLen?_nil] at hoat; cases hoat
  | cons c rest =>
      rw [hr] at hoat hcnone
      rw [depthScan_open hcnone hoat]
      have holpos : 1 ≤ ol := openLen?_pos hoat htag
      have hshadow := open_shadow hoat htag
      have hskip : ∀ j, j < ol - 1 →
          closeLen? tag (rest.drop j) = none ∧ openLen? tag (rest.drop j) = none := by
        intro j hj
        have : rest.drop j = (c :: rest).drop (1 + j) := by
          rw [show (1 + j) = j + 1 from by omega]
          rfl
        rw [this]
        have hnb := @none_of_no_braces tag ((c :: rest).drop (1 + j))
          (hshadow (1 + j) (by omega) (by omega))
        exact ⟨hnb.2, hnb.1⟩
      rw [depthScan_skip tag (ol - 1) rest (depth + 1) hskip]
      have hde : rest.drop (ol - 1) = s.drop (oi + ol) := by
        have h1 : rest = s.drop (oi + 1) := by
          have : s.drop (oi + 1) = (s.drop oi).drop 1 := by
            rw [List.drop_drop]
          rw [this, hr]
          rfl
        rw [h1, List.drop_drop]
        congr 1
        omega
      rw [hde]
      cases depthScan tag (s.drop (oi + ol)) (depth + 1) with
      | none => rfl
      | some il =>
          obtain ⟨i2, l2⟩ := il
          simp only [Option.map_map, Option.map_some', Function.comp_apply,
            Option.some.injEq, Prod.mk.injEq]
          exact ⟨by omega, trivial⟩

end PVTFC

namespace PVTFC

/-- The imperative scanning loop of `findBlockEnd` agrees with the
declarative depth-counting scan: the returned split is the one at the
zero-depth closing tag found by counting every open tag of any of the
three kinds up and every close tag of any of the three kinds down. -/
theorem fbeGo_eq_depthScan (content tag : Str) (htag : tag ∈ kinds) :
    ∀ (fuel pos depth : Nat), content.length - pos < fuel → 1 ≤ depth →
    fbeGo content tag fuel pos depth =
      (match depthScan tag (content.drop pos) depth with
       | some il => (content.take (pos + il.1), content.drop (pos + il.1 + il.2))
       | none => (content, [])) := by
  intro fuel
  induction fuel with
  | zero => intro pos depth hf _; omega
  | succ fuel ih =>
      intro pos depth hf hd
      rw [show fbeGo content tag (fuel + 1) pos depth =
        (match firstMatch (closeLen? tag) (content.drop pos) with
         | none => (content, [])
         | some (closeIdx, closeLen) =>
            match firstMatch (openLen? tag) (content.drop pos) with
            | some (openIdx, openLen) =>
                if openIdx < closeIdx then
                  fbeGo content tag fuel (pos + openIdx + openLen) (depth + 1)
                else if depth = 1 then
                  (content.take (pos + closeIdx),
                   content.drop (pos + closeIdx + closeLen))
                else
                  fbeGo content tag fuel (pos + closeIdx + closeLen) (depth - 1)
            | none =>
                if depth = 1 then
                  (content.take (pos + closeIdx),
                   content.drop (pos + closeIdx + closeLen))
                else
                  fbeGo content tag fuel (pos + closeIdx + closeLen) (depth - 1)) from rfl]
      cases hcm : firstMatch (closeLen? tag) (content.drop pos) with
      | none =>
          have hall := firstMatch_none (closeLen?_nil tag) hcm
          rw [depthScan_no_close (content.drop pos) depth hall]
      | some cil =>
          obtain ⟨ci, cl⟩ := cil
          obtain ⟨hcat, hcmin⟩ := firstMatch_some hcm
          have hclpos : 1 ≤ cl := closeLen?_pos hcat htag
          have hcibound : ci + pos < content.length := by
            by_contra hgt
            have : (content.drop pos).drop ci = [] := by
              rw [List.drop_drop, List.drop_eq_nil_iff]
              omega
            rw [this, closeLen?_nil] at hcat
            cases hcat
          cases hom : firstMatch (openLen? tag) (content.drop pos) with
          | some oil =>
              obtain ⟨oi, ol⟩ := oil
              obtain ⟨hoat, homin⟩ := firstMatch_some hom
              simp only []
              by_cases hlt : oi < ci
              · rw [if_pos hlt]
                have holpos : 1 ≤ ol := openLen?_pos hoat htag
                have hds := @depthScan_at_open tag htag (content.drop pos) oi ol depth
                  hoat (hcmin oi hlt) (fun j hj => ⟨hcmin j (by omega), homin j hj⟩)
                rw [hds]
                rw [show ((content.drop pos).drop (oi + ol)) =
                  content.drop (pos + oi + ol) from by rw [List.drop_drop]; congr 1; omega]
                rw [ih (pos + oi + ol) (depth + 1) (by omega) (by omega)]
                cases depthScan tag (content.drop (pos + oi + ol)) (depth + 1) with
                | none => rfl
                | some il =>
                    obtain ⟨i2, l2⟩ := il
                    simp only [Option.map_some']
                    have e1 : pos + oi + ol + i2 = pos + (i2 + (oi + ol)) := by omega
                    rw [e1]
              · rw [if_neg hlt]
                have hopen_none : ∀ j, j < ci → openLen? tag ((content.drop pos).drop j) =
                    none := fun j hj => homin j (by omega)
                have hds := @depthScan_at_close tag htag (content.drop pos) ci cl depth
                  hcat (fun j hj => ⟨hcmin j hj, hopen_none j hj⟩)
                rw [hds]
                by_cases hd1 : depth = 1
                · rw [if_pos hd1, if_pos hd1]
                · rw [if_neg hd1, if_neg hd1]
                  rw [show ((content.drop pos).drop (ci + cl)) =
                    content.drop (pos + ci + cl) from by rw [List.drop_drop]; congr 1; omega]
                  rw [ih (pos + ci + cl) (depth - 1) (by omega) (by omega)]
                  cases depthScan tag (content.drop (pos + ci + cl)) (depth - 1) with
                  | none => rfl
                  | some il =>
                      obtain ⟨i2, l2⟩ := il
                      simp only [Option.map_some']
                      have e1 : pos + ci + cl + i2 = pos + (i2 + (ci + cl)) := by omega
                      rw [e1]
          | none =>
              have hopen_none := firstMatch_none (openLen?_nil tag) hom
              have hds := @depthScan_at_close tag htag (content.drop pos) ci cl depth
                hcat (fun j hj => ⟨hcmin j hj, hopen_none j⟩)
              simp only []
              rw [hds]
              by_cases hd1 : depth = 1
              · rw [if_pos hd1, if_pos hd1]
              · rw [if_neg hd1, if_neg hd1]
                rw [show ((content.drop pos).drop (ci + cl)) =
                  content.drop (pos + ci + cl) from by rw [List.drop_drop]; congr 1; omega]
                rw [ih (pos + ci + cl) (depth - 1) (by omega) (by omega)]
                cases depthScan tag (content.drop (pos + ci + cl)) (depth - 1) with
                | none => rfl
                | some il =>
                    obtain ⟨i2, l2⟩ := il
                    simp only [Option.map_some']
                    have e1 : pos + ci + cl + i2 = pos + (i2 + (ci + cl)) := by omega
                    rw [e1]

end PVTFC

namespace PVTFC

/-- C3: for every content string that contains a matching close tag for
the open block - characterized by the depth-counting scan in which every
opening tag of any of the three kinds increments the depth regardless of
the kind searched for and every closing tag of any of the three kinds
decrements it - the scanner returns the body strictly between the
original opening tag and the zero-depth closing tag, and the rest after
that closing tag. -/
theorem findBlockEnd_matched_split (content tag : Str) (htag : tag ∈ kinds)
    (i l : Nat) (h : depthScan tag content 1 = some (i, l)) :
    findBlockEnd content tag = (content.take i, content.drop (i + l)) := by
  unfold findBlockEnd
  rw [fbeGo_eq_depthScan content tag htag (content.length + 1) 0 1 (by omega) (by omega)]
  rw [List.drop_zero, h]
  simp

/-- C3, witness: an each block containing a nested if block; the
zero-depth close is the close-each after the nested close-if. -/
theorem findBlockEnd_matched_split_witness :
    (toL "each" ∈ kinds ∧
      depthScan (toL "each") (toL "A\x7b\x7b#if x\x7d\x7dB\x7b\x7b/if\x7d\x7dC\x7b\x7b/each\x7d\x7dD") 1 =
        some (19, 9)) ∧
    findBlockEnd (toL "A\x7b\x7b#if x\x7d\x7dB\x7b\x7b/if\x7d\x7dC\x7b\x7b/each\x7d\x7dD") (toL "each") =
      ((toL "A\x7b\x7b#if x\x7d\x7dB\x7b\x7b/if\x7d\x7dC\x7b\x7b/each\x7d\x7dD").take 19,
       (toL "A\x7b\x7b#if x\x7d\x7dB\x7b\x7b/if\x7d\x7dC\x7b\x7b/each\x7d\x7dD").drop (19 + 9)) :=
  ⟨⟨by decide, by decide⟩,
    findBlockEnd_matched_split _ (toL "each") (by decide) 19 9 (by decide)⟩

/-- C6: when no matching closing tag exists - the depth-counting scan
finds no zero-depth close before the content is exhausted - the scanner
returns the entire content as body with empty rest; consequently a
template with an unterminated truthy if block (no else marker) renders
the remaining content exactly as if the block extended to the end of the
input. -/
theorem findBlockEnd_unterminated :
    (∀ content tag, tag ∈ kinds → depthScan tag content 1 = none →
      findBlockEnd content tag = (content, [])) ∧
    (∀ (f : Nat) (p rest : Str) (ctx : Ctx) (ps : Partials), validPath p →
      depthScan (toL "if") rest 1 = none → elseScanGo rest 0 0 = none →
      truthy (resolvePath (.obj ctx) p) = true →
      render (f + 2) (toL "\x7b\x7b#if " ++ p ++ toL "\x7d\x7d" ++ rest) ctx ps =
        render (f + 1) rest ctx ps) := by
  have hmain : ∀ content tag, tag ∈ kinds → depthScan tag content 1 = none →
      findBlockEnd content tag = (content, []) := by
    intro content tag htag h
    unfold findBlockEnd
    rw [fbeGo_eq_depthScan content tag htag (content.length + 1) 0 1 (by omega) (by omega)]
    rw [List.drop_zero, h]
  refine ⟨hmain, ?_⟩
  intro f p rest ctx ps hp hscan helse htr
  have hstr : toL "\x7b\x7b#if " ++ p ++ toL "\x7d\x7d" ++ rest =
      toL "\x7b\x7b#" ++ toL "if" ++ ' ' :: (p ++ toL "\x7d\x7d" ++ rest) := by
    simp only [List.append_assoc]; rfl
  rw [hstr]
  rw [show f + 2 = (f + 1) + 1 from rfl]
  rw [render_step_if (f + 1) p rest ctx ps hp]
  rw [hmain rest (toL "if") (by decide) hscan]
  rw [show elseSplit ((rest, ([] : Str)).1) = (rest, []) from by
    unfold elseSplit
    rw [helse]]
  rw [htr]
  simp only [if_true, render_nil]
  cases render (f + 1) rest ctx ps with
  | none => rfl
  | some a => simp

/-- C6, witness: a block-free content has no zero-depth close, and an
unterminated truthy if block renders its tail as if closed at end of
input. -/
theorem findBlockEnd_unterminated_witness :
    ((toL "each" ∈ kinds ∧ depthScan (toL "each") (toL "A\x7b\x7b#if x\x7d\x7dB") 1 = none) ∧
      findBlockEnd (toL "A\x7b\x7b#if x\x7d\x7dB") (toL "each") = (toL "A\x7b\x7b#if x\x7d\x7dB", [])) ∧
    (validPath (toL "x") ∧
      render 3 (toL "\x7b\x7b#if " ++ toL "x" ++ toL "\x7d\x7d" ++ toL "Q")
          [(toL "x", Value.num 1)] [] =
        render 2 (toL "Q") [(toL "x", Value.num 1)] []) :=
  ⟨⟨⟨by decide, by decide⟩,
      findBlockEnd_unterminated.1 (toL "A\x7b\x7b#if x\x7d\x7dB") (toL "each")
        (by decide) (by decide)⟩,
    ⟨by decide,
      findBlockEnd_unterminated.2 1 (toL "x") (toL "Q") [(toL "x", Value.num 1)] []
        (by decide) (by decide) (by decide) (by decide)⟩⟩

end PVTFC

namespace PVTFC

/-! ## Claim C2: the else-split of an if-block body -/

/-- The hash-brace marker test at a position of the body (the increment
condition of the else-scanning loop). -/
def incB (body : Str) (i : Nat) : Bool := pfx (toL "\x7b\x7b#") (body.drop i)

/-- The three-kind close-tag test at a position of the body (the
decrement condition of the else-scanning loop). -/
def decB (body : Str) (i : Nat) : Bool := closeTest3 (body.drop i)

/-- The else-marker test at a position of the body. -/
def elseAtB (body : Str) (i : Nat) : Bool := pfx (toL "\x7b\x7belse\x7d\x7d") (body.drop i)

/-- The declarative depth before position `i`: increments at hash-brace
markers minus decrements at three-kind close tags, over all positions
strictly before `i`. -/
def depthAt (body : Str) (i : Nat) : Int :=
  (List.range i).foldl
    (fun d j => (d + (if incB body j then 1 else 0)) - (if decB body j then 1 else 0)) 0

/-- First position carrying an else marker at declarative depth zero. -/
def elseIdx (body : Str) : Option Nat :=
  (List.range body.length).find? (fun i => elseAtB body i && depthAt body i == 0)

theorem depthAt_succ (body : Str) (i : Nat) :
    depthAt body (i + 1) =
      (depthAt body i + (if incB body i then 1 else 0)) -
        (if decB body i then 1 else 0) := by
  unfold depthAt
  rw [List.range_succ, List.foldl_append]
  rfl

theorem elseAtB_not_inc_dec {body : Str} {i : Nat} (h : elseAtB body i = true) :
    incB body i = false ∧ decB body i = false := by
  unfold elseAtB at h
  obtain ⟨t, ht⟩ := pfx_of h
  constructor
  · unfold incB
    rw [ht]
    rfl
  · unfold decB
    rw [ht]
    rfl

end PVTFC

namespace PVTFC

/-- The character loop of the else split agrees with "first else marker
at declarative depth zero". -/
theorem elseScanGo_eq_find :
    ∀ (s body : Str) (i : Nat), body.drop i = s → i ≤ body.length →
      elseScanGo s (depthAt body i) i =
        (List.range' i (body.length - i)).find?
          (fun j => elseAtB body j && depthAt body j == 0) := by
  intro s
  induction s with
  | nil =>
      intro body i hdrop hle
      have h0 : body.length ≤ i := by
        rw [← List.drop_eq_nil_iff]
        exact hdrop
      rw [show body.length - i = 0 from by omega]
      rfl
  | cons c rest ih =>
      intro body i hdrop hle
      have hlt : i < body.length := by
        by_contra hc
        have : body.drop i = [] := by
          rw [List.drop_eq_nil_iff]
          omega
        rw [this] at hdrop
        cases hdrop
      have hinc : incB body i = pfx (toL "\x7b\x7b#") (c :: rest) := by
        unfold incB
        rw [hdrop]
      have hdec : decB body i = closeTest3 (c :: rest) := by
        unfold decB
        rw [hdrop]
      have helse : elseAtB body i = pfx (toL "\x7b\x7belse\x7d\x7d") (c :: rest) := by
        unfold elseAtB
        rw [hdrop]
      have hrest : body.drop (i + 1) = rest := by
        have : body.drop (i + 1) = (body.drop i).drop 1 := by
          rw [List.drop_drop]
        rw [this, hdrop]
        rfl
      have hd2 : (if closeTest3 (c :: rest) then
            (if pfx (toL "\x7b\x7b#") (c :: rest) then depthAt body i + 1 else depthAt body i) - 1
          else
            (if pfx (toL "\x7b\x7b#") (c :: rest) then depthAt body i + 1 else depthAt body i)) =
          depthAt body (i + 1) := by
        rw [depthAt_succ, hinc, hdec]
        cases pfx (toL "\x7b\x7b#") (c :: rest) <;> cases closeTest3 (c :: rest) <;> simp
      rw [show elseScanGo (c :: rest) (depthAt body i) i =
          (if ((if closeTest3 (c :: rest) then
              (if pfx (toL "\x7b\x7b#") (c :: rest) then depthAt body i + 1 else depthAt body i) - 1
            else
              (if pfx (toL "\x7b\x7b#") (c :: rest) then depthAt body i + 1
                else depthAt body i)) = 0 && pfx (toL "\x7b\x7belse\x7d\x7d") (c :: rest)) then
            some i
          else elseScanGo rest
            (if closeTest3 (c :: rest) then
              (if pfx (toL "\x7b\x7b#") (c :: rest) then depthAt body i + 1 else depthAt body i) - 1
            else
              (if pfx (toL "\x7b\x7b#") (c :: rest) then depthAt body i + 1 else depthAt body i))
            (i + 1)) from rfl]
      rw [hd2]
      rw [show body.length - i = (body.length - (i + 1)) + 1 from by omega]
      rw [List.range'_succ]
      have hfind : (i :: List.range' (i + 1) (body.length - (i + 1))).find?
            (fun j => elseAtB body j && depthAt body j == 0) =
          if (elseAtB body i && depthAt body i == 0) then some i
          else (List.range' (i + 1) (body.length - (i + 1))).find?
            (fun j => elseAtB body j && depthAt body j == 0) := by
        cases hp : (elseAtB body i && depthAt body i == 0) with
        | true => simp [List.find?_cons, hp]
        | false => simp [List.find?_cons, hp]
      rw [hfind]
      by_cases hel : elseAtB body i = true
      · obtain ⟨hi0, hd0⟩ := elseAtB_not_inc_dec hel
        have hsame : depthAt body (i + 1) = depthAt body i := by
          rw [depthAt_succ, hi0, hd0]
          simp
        rw [helse] at hel
        by_cases hz : depthAt body i = 0
        · rw [if_pos (by rw [hsame, hz, hel]; rfl)]
          rw [if_pos (by rw [← helse] at hel; rw [hel, hz]; rfl)]
        · rw [if_neg (by rw [hsame]; simp [hz])]
          rw [if_neg (by simp [hz])]
          exact ih body (i + 1) hrest (by omega)
      · have hel' : elseAtB body i = false := by
          revert hel
          cases elseAtB body i <;> simp
        rw [helse] at hel'
        rw [if_neg (by simp [hel'])]
        rw [if_neg (by rw [← helse] at hel'; simp [hel'])]
        exact ih body (i + 1) hrest (by omega)

/-- C2, counterexample.  In the body of
`(\x7b\x7b#if p\x7d\x7d\x7b\x7b#z\x7d\x7d\x7b\x7belse\x7d\x7dA\x7b\x7b/if\x7d\x7d)`, the fragment `(\x7b\x7b#z\x7d\x7d)` is not an
opening tag of any of the three block kinds (no open- or close-pattern
of the three kinds matches anywhere in the body), so by the claim the
else marker at position 6 is at nesting depth zero and must be taken.
The code increments its counter on the bare hash-brace marker of
`(\x7b\x7b#z\x7d\x7d)`, never decrements it, and therefore does not split. -/
theorem elseSplit_nonblock_cx :
    elseAtB (toL "\x7b\x7b#z\x7d\x7d\x7b\x7belse\x7d\x7dA") 6 = true ∧
    (∀ j, j < 15 →
      openLen? (toL "if") ((toL "\x7b\x7b#z\x7d\x7d\x7b\x7belse\x7d\x7dA").drop j) = none ∧
      closeLen? (toL "if") ((toL "\x7b\x7b#z\x7d\x7d\x7b\x7belse\x7d\x7dA").drop j) = none) ∧
    elseSplit (toL "\x7b\x7b#z\x7d\x7d\x7b\x7belse\x7d\x7dA") = (toL "\x7b\x7b#z\x7d\x7d\x7b\x7belse\x7d\x7dA", []) ∧
    ((toL "\x7b\x7b#z\x7d\x7d\x7b\x7belse\x7d\x7dA").take 6, (toL "\x7b\x7b#z\x7d\x7d\x7b\x7belse\x7d\x7dA").drop 14) ≠
      (toL "\x7b\x7b#z\x7d\x7d\x7b\x7belse\x7d\x7dA", []) := by
  refine ⟨by decide, by decide, by decide, by decide⟩

/-- C2, amended: the body is split at the first else marker whose
declarative depth is zero, where the depth counts an increment at every
occurrence of the hash-brace marker (any opening tag, whether or not it
is one of the three block kinds) and a decrement at every closing tag of
the three kinds; an else marker at nonzero depth is never taken, and
without a zero-depth else marker the whole body is the true branch. -/
theorem elseSplit_first_zero_depth (body : Str) :
    elseSplit body =
      (match elseIdx body with
       | some i => (body.take i, body.drop (i + 8))
       | none => (body, [])) := by
  unfold elseSplit elseIdx
  have h := elseScanGo_eq_find body body 0 (by rw [List.drop_zero]) (by omega)
  rw [show depthAt body 0 = 0 from rfl] at h
  rw [h]
  rw [List.range_eq_range']
  rw [show body.length - 0 = body.length from by omega]

end PVTFC

namespace PVTFC

/-! ## Claim C8: rendering is deterministic (fuel-irrelevant) -/

theorem iterItems_mono (g1 g2 : Value → Nat → Option (Str × List Str))
    (hg : ∀ v i r, g1 v i = some r → g2 v i = some r) :
    ∀ (xs : List Value) (k : Nat) (r : Str × List Str),
      iterItems g1 xs k = some r → iterItems g2 xs k = some r := by
  intro xs
  induction xs with
  | nil => intro k r h; exact h
  | cons x xs ih =>
      intro k r h
      rw [show iterItems g1 (x :: xs) k = (do
        let a ← g1 x k
        let b ← iterItems g1 xs (k + 1)
        some (a.1 ++ b.1, a.2 ++ b.2)) from rfl] at h
      rw [show iterItems g2 (x :: xs) k = (do
        let a ← g2 x k
        let b ← iterItems g2 xs (k + 1)
        some (a.1 ++ b.1, a.2 ++ b.2)) from rfl]
      cases ha : g1 x k with
      | none => rw [ha] at h; simp at h
      | some a =>
          rw [ha] at h
          cases hb : iterItems g1 xs (k + 1) with
          | none => rw [hb] at h; simp at h
          | some b =>
              rw [hb] at h
              rw [hg x k a ha, ih (k + 1) b hb]
              exact h

theorem renderStep_mono (rec1 rec2 : Str → Ctx → Partials → Option (Str × List Str))
    (hrec : ∀ s c p r, rec1 s c p = some r → rec2 s c p = some r) :
    ∀ (t : Str) (c : Ctx) (p : Partials) (r : Str × List Str),
      renderStep rec1 t c p = some r → renderStep rec2 t c p = some r := by
  intro t c p r h
  unfold renderStep at h ⊢
  by_cases ht : t.isEmpty = true
  · rw [if_pos ht] at h ⊢; exact h
  rw [if_neg ht] at h ⊢
  cases hidx : idxOfBraces t with
  | none => rw [hidx] at h; exact h
  | some tagIdx =>
      rw [hidx] at h
      simp only [] at h ⊢
      cases hpm : matchPartialTag (t.drop tagIdx) with
      | some nl =>
          obtain ⟨name, len⟩ := nl
          rw [hpm] at h
          simp only [] at h ⊢
          cases hlp : lookupPartialText p name with
          | some ptxt =>
              cases ptxt with
              | cons c0 cs =>
                  rw [hlp] at h
                  simp only [] at h ⊢
                  cases ha : rec1 (c0 :: cs) c p with
                  | none => rw [ha] at h; simp at h
                  | some a =>
                      rw [ha] at h
                      cases hb : rec1 ((t.drop tagIdx).drop len) c p with
                      | none => rw [hb] at h; simp at h
                      | some b =>
                          rw [hb] at h
                          rw [hrec _ _ _ _ ha, hrec _ _ _ _ hb]
                          exact h
              | nil =>
                  rw [hlp] at h
                  simp only [] at h ⊢
                  cases hb : rec1 ((t.drop tagIdx).drop len) c p with
                  | none => rw [hb] at h; simp at h
                  | some b =>
                      rw [hb] at h
                      rw [hrec _ _ _ _ hb]
                      exact h
          | none =>
              rw [hlp] at h
              simp only [] at h ⊢
              cases hb : rec1 ((t.drop tagIdx).drop len) c p with
              | none => rw [hb] at h; simp at h
              | some b =>
                  rw [hb] at h
                  rw [hrec _ _ _ _ hb]
                  exact h
      | none =>
          rw [hpm] at h
          cases hem : matchEach (t.drop tagIdx) with
          | some pl =>
              obtain ⟨path, len⟩ := pl
              rw [hem] at h
              simp only [] at h ⊢
              cases hv : resolvePath (.obj c) path with
              | arr xs =>
                  rw [hv] at h
                  simp only [] at h ⊢
                  cases ha : iterItems (fun item i =>
                      rec1 (findBlockEnd ((t.drop tagIdx).drop len) (toL "each")).1
                        (itemContext c item i xs.length) p) xs 0 with
                  | none => rw [ha] at h; simp at h
                  | some a =>
                      rw [ha] at h
                      cases hb : rec1 (findBlockEnd ((t.drop tagIdx).drop len)
                          (toL "each")).2 c p with
                      | none => rw [hb] at h; simp at h
                      | some b =>
                          rw [hb] at h
                          rw [iterItems_mono _ (fun item i =>
                              rec2 (findBlockEnd ((t.drop tagIdx).drop len) (toL "each")).1
                                (itemContext c item i xs.length) p)
                            (fun v i r hr => hrec _ _ _ _ hr) xs 0 a ha]
                          rw [hrec _ _ _ _ hb]
                          exact h
              | null =>
                  rw [hv] at h
                  simp only [] at h ⊢
                  cases hb : rec1 (findBlockEnd ((t.drop tagIdx).drop len)
                      (toL "each")).2 c p with
                  | none => rw [hb] at h; simp at h
                  | some b => rw [hb] at h; rw [hrec _ _ _ _ hb]; exact h
              | undef =>
                  rw [hv] at h
                  simp only [] at h ⊢
                  cases hb : rec1 (findBlockEnd ((t.drop tagIdx).drop len)
                      (toL "each")).2 c p with
                  | none => rw [hb] at h; simp at h
                  | some b => rw [hb] at h; rw [hrec _ _ _ _ hb]; exact h
              | bool bv =>
                  rw [hv] at h
                  simp only [] at h ⊢
                  cases hb : rec1 (findBlockEnd ((t.drop tagIdx).drop len)
                      (toL "each")).2 c p with
                  | none => rw [hb] at h; simp at h
                  | some b => rw [hb] at h; rw [hrec _ _ _ _ hb]; exact h
              | num nv =>
                  rw [hv] at h
                  simp only [] at h ⊢
                  cases hb : rec1 (findBlockEnd ((t.drop tagIdx).drop len)
                      (toL "each")).2 c p with
                  | none => rw [hb] at h; simp at h
                  | some b => rw [hb] at h; rw [hrec _ _ _ _ hb]; exact h
              | str sv =>
                  rw [hv] at h
                  simp only [] at h ⊢
                  cases hb : rec1 (findBlockEnd ((t.drop tagIdx).drop len)
                      (toL "each")).2 c p with
                  | none => rw [hb] at h; simp at h
                  | some b => rw [hb] at h; rw [hrec _ _ _ _ hb]; exact h
              | obj ov =>
                  rw [hv] at h
                  simp only [] at h ⊢
                  cases hb : rec1 (findBlockEnd ((t.drop tagIdx).drop len)
                      (toL "each")).2 c p with
                  | none => rw [hb] at h; simp at h
                  | some b => rw [hb] at h; rw [hrec _ _ _ _ hb]; exact h
          | none =>
              rw [hem] at h
              cases him : matchIf (t.drop tagIdx) with
              | some pl =>
                  obtain ⟨path, len⟩ := pl
                  rw [him] at h
                  simp only [] at h ⊢
                  cases ha : rec1 (if truthy (resolvePath (.obj c) path)
                      then (elseSplit (findBlockEnd ((t.drop tagIdx).drop len)
                        (toL "if")).1).1
                      else (elseSplit (findBlockEnd ((t.drop tagIdx).drop len)
                        (toL "if")).1).2) c p with
                  | none => rw [ha] at h; simp at h
                  | some a =>
                      rw [ha] at h
                      cases hb : rec1 (findBlockEnd ((t.drop tagIdx).drop len)
                          (toL "if")).2 c p with
                      | none => rw [hb] at h; simp at h
                      | some b =>
                          rw [hb] at h
                          rw [hrec _ _ _ _ ha, hrec _ _ _ _ hb]
                          exact h
              | none =>
                  rw [him] at h
                  cases hum : matchUnless (t.drop tagIdx) with
                  | some pl =>
                      obtain ⟨path, len⟩ := pl
                      rw [hum] at h
                      simp only [] at h ⊢
                      by_cases htr : truthy (resolvePath (.obj c) path) = true
                      · rw [if_pos htr] at h ⊢
                        cases hb : rec1 (findBlockEnd ((t.drop tagIdx).drop len)
                            (toL "unless")).2 c p with
                        | none => rw [hb] at h; simp at h
                        | some b => rw [hb] at h; rw [hrec _ _ _ _ hb]; exact h
                      · rw [if_neg htr] at h ⊢
                        cases ha : rec1 (findBlockEnd ((t.drop tagIdx).drop len)
                            (toL "unless")).1 c p with
                        | none => rw [ha] at h; simp at h
                        | some a =>
                            rw [ha] at h
                            cases hb : rec1 (findBlockEnd ((t.drop tagIdx).drop len)
                                (toL "unless")).2 c p with
                            | none => rw [hb] at h; simp at h
                            | some b =>
                                rw [hb] at h
                                rw [hrec _ _ _ _ ha, hrec _ _ _ _ hb]
                                exact h
                  | none =>
                      rw [hum] at h
                      cases hvm : matchVar (t.drop tagIdx) with
                      | some pl =>
                          obtain ⟨path, len⟩ := pl
                          rw [hvm] at h
                          simp only [] at h ⊢
                          cases hb : rec1 ((t.drop tagIdx).drop len) c p with
                          | none => rw [hb] at h; simp at h
                          | some b => rw [hb] at h; rw [hrec _ _ _ _ hb]; exact h
                      | none =>
                          rw [hvm] at h
                          cases hb : rec1 ((t.drop tagIdx).drop 2) c p with
                          | none => rw [hb] at h; simp at h
                          | some b => rw [hb] at h; rw [hrec _ _ _ _ hb]; exact h

theorem render_mono :
    ∀ (f : Nat) (t : Str) (c : Ctx) (p : Partials) (r : Str × List Str),
      render f t c p = some r → render (f + 1) t c p = some r := by
  intro f
  induction f with
  | zero => intro t c p r h; cases h
  | succ f ih =>
      intro t c p r h
      exact renderStep_mono (render f) (render (f + 1))
        (fun s c' p' r' h' => ih s c' p' r' h') t c p r h

theorem render_mono_le {f g : Nat} (hle : f ≤ g) :
    ∀ {t : Str} {c : Ctx} {p : Partials} {r : Str × List Str},
      render f t c p = some r → render g t c p = some r := by
  induction g with
  | zero =>
      intro t c p r h
      rw [show f = 0 from by omega] at h
      exact h
  | succ g ih =>
      intro t c p r h
      by_cases hfg : f = g + 1
      · rw [← hfg]; exact h
      · exact render_mono g t c p r (ih (by omega) h)

/-- C8: rendering is a pure function of (template, context, partials) -
two runs that produce a result produce the same result, whatever fuel
each was given; the context and the partial registry are immutable
values in the model, so rendering cannot modify them. -/
theorem render_deterministic (t : Str) (c : Ctx) (ps : Partials) (f1 f2 : Nat)
    (r1 r2 : Str × List Str) (h1 : render f1 t c ps = some r1)
    (h2 : render f2 t c ps = some r2) : r1 = r2 := by
  rcases Nat.le_total f1 f2 with hle | hle
  · have h1' := render_mono_le hle h1
    rw [h1'] at h2
    cases h2
    rfl
  · have h2' := render_mono_le hle h2
    rw [h2'] at h1
    cases h1
    rfl

/-- C8, witness: two renders of the same template at different fuel
yield the same output. -/
theorem render_deterministic_witness :
    (render 2 (toL "A\x7b\x7bx\x7d\x7d") [(toL "x", Value.str (toL "B"))] [] =
        some (toL "AB", []) ∧
      render 5 (toL "A\x7b\x7bx\x7d\x7d") [(toL "x", Value.str (toL "B"))] [] =
        some (toL "AB", [])) ∧
    ((toL "AB", ([] : List Str)) = (toL "AB", [])) :=
  ⟨⟨by decide, by decide⟩,
    render_deterministic (toL "A\x7b\x7bx\x7d\x7d") [(toL "x", Value.str (toL "B"))] []
      2 5 (toL "AB", []) (toL "AB", []) (by decide) (by decide)⟩

end PVTFC

namespace PVTFC

/-! ## Claim C10: termination for partial-free templates -/

/-- A template containing no partial-reference tag: the partial pattern
matches at no position. -/
def partialFree (t : Str) : Prop :=
  ∀ i, i < t.length → matchPartialTag (t.drop i) = none

instance (t : Str) : Decidable (partialFree t) := by
  unfold partialFree; infer_instance

theorem matchPartialTag_nil : matchPartialTag [] = none := rfl

theorem partialFree_all {t : Str} (h : partialFree t) :
    ∀ i, matchPartialTag (t.drop i) = none := by
  intro i
  by_cases hi : i < t.length
  · exact h i hi
  · rw [List.drop_eq_nil_iff.mpr (by omega)]
    rfl

theorem partialFree_drop {t : Str} (h : partialFree t) (a : Nat) :
    partialFree (t.drop a) := by
  intro i _
  rw [List.drop_drop]
  exact partialFree_all h (a + i)

theorem partialFree_take {t : Str} (h : partialFree t) (b : Nat) :
    partialFree (t.take b) := by
  intro i _
  cases hm : matchPartialTag ((t.take b).drop i) with
  | none => rfl
  | some r =>
      obtain ⟨nm, ln⟩ := r
      exfalso
      have hdt : (t.take b).drop i = (t.drop i).take (b - i) := List.drop_take ..
      rw [hdt] at hm
      have hext := matchPartialTag_extend ((t.drop i).drop (b - i)) hm
      rw [List.take_append_drop] at hext
      rw [partialFree_all h i] at hext
      cases hext

theorem idxOfBraces_lt {t : Str} {i : Nat} (h : idxOfBraces t = some i) :
    i < t.length := by
  induction t generalizing i with
  | nil => cases h
  | cons c rest ih =>
      rw [show idxOfBraces (c :: rest) = (if pfx (toL "\x7b\x7b") (c :: rest) = true
          then some 0 else (idxOfBraces rest).map (· + 1)) from rfl] at h
      by_cases hp : pfx (toL "\x7b\x7b") (c :: rest) = true
      · rw [if_pos hp] at h
        cases h
        simp
      · rw [if_neg hp] at h
        cases hm : idxOfBraces rest with
        | none => rw [hm] at h; cases h
        | some j =>
            rw [hm] at h
            cases h
            have := ih hm
            simp only [List.length_cons]
            omega

theorem matchPartialTag_len_pos {s nm : Str} {ln : Nat}
    (h : matchPartialTag s = some (nm, ln)) : 1 ≤ ln := by
  obtain ⟨A, W, e, _, _, _, _, rfl⟩ := matchPartialTag_elim h
  omega

theorem matchBlockOpen_len_pos {kw s p : Str} {ln : Nat}
    (h : matchBlockOpen kw s = some (p, ln)) : 1 ≤ ln := by
  obtain ⟨W, e, _, _, _, _, rfl⟩ := matchBlockOpen_elim h
  omega

theorem matchVar_len_pos {s p : Str} {ln : Nat}
    (h : matchVar s = some (p, ln)) : 1 ≤ ln := by
  obtain ⟨e, _, _, rfl⟩ := matchVar_elim h
  omega

theorem iterItems_isSome (g : Value → Nat → Option (Str × List Str))
    (hg : ∀ v i, (g v i).isSome = true) :
    ∀ (xs : List Value) (k : Nat), (iterItems g xs k).isSome = true := by
  intro xs
  induction xs with
  | nil => intro k; rfl
  | cons x xs ih =>
      intro k
      rw [show iterItems g (x :: xs) k = (do
        let a ← g x k
        let b ← iterItems g xs (k + 1)
        some (a.1 ++ b.1, a.2 ++ b.2)) from rfl]
      obtain ⟨a, ha⟩ := Option.isSome_iff_exists.mp (hg x k)
      obtain ⟨b, hb⟩ := Option.isSome_iff_exists.mp (ih (k + 1))
      rw [ha, hb]
      rfl

/-- Both components of `findBlockEnd` are take/drop substrings of the
content (or the content itself with empty rest). -/
theorem findBlockEnd_shape (content tag : Str) (htag : tag ∈ kinds) :
    (∃ i l, findBlockEnd content tag = (content.take i, content.drop (i + l))) ∨
      findBlockEnd content tag = (content, []) := by
  cases hscan : depthScan tag content 1 with
  | some il =>
      left
      refine ⟨il.1, il.2, ?_⟩
      unfold findBlockEnd
      rw [fbeGo_eq_depthScan content tag htag (content.length + 1) 0 1 (by omega)
        (by omega)]
      rw [List.drop_zero, hscan]
      simp
  | none =>
      right
      unfold findBlockEnd
      rw [fbeGo_eq_depthScan content tag htag (content.length + 1) 0 1 (by omega)
        (by omega)]
      rw [List.drop_zero, hscan]

end PVTFC

namespace PVTFC

theorem partialFree_nil : partialFree [] := by
  intro i hi
  simp at hi

theorem block_body_facts (t : Str) (hpf : partialFree t) (a : Nat) (tag : Str)
    (htag : tag ∈ kinds) :
    partialFree (findBlockEnd (t.drop a) tag).1 ∧
      (findBlockEnd (t.drop a) tag).1.length ≤ (t.drop a).length ∧
      partialFree (findBlockEnd (t.drop a) tag).2 ∧
      (findBlockEnd (t.drop a) tag).2.length ≤ (t.drop a).length := by
  rcases findBlockEnd_shape (t.drop a) tag htag with ⟨i, l, heq⟩ | heq
  · rw [heq]
    refine ⟨partialFree_take (partialFree_drop hpf a) i, ?_,
      partialFree_drop (partialFree_drop hpf a) (i + l), ?_⟩
    · simp only [List.length_take]
      omega
    · simp only [List.length_drop]
      omega
  · rw [heq]
    exact ⟨partialFree_drop hpf a, le_refl _, partialFree_nil, by simp⟩

theorem elseSplit_facts (body : Str) (h : partialFree body) :
    partialFree (elseSplit body).1 ∧ (elseSplit body).1.length ≤ body.length ∧
      partialFree (elseSplit body).2 ∧ (elseSplit body).2.length ≤ body.length := by
  unfold elseSplit
  cases elseScanGo body 0 0 with
  | some i =>
      refine ⟨partialFree_take h i, ?_, partialFree_drop h (i + 8), ?_⟩
      · simp only [List.length_take]
        omega
      · simp only [List.length_drop]
        omega
  | none => exact ⟨h, le_refl _, partialFree_nil, by simp⟩

/-- C10: for every template containing no partial-reference tags, the
renderer terminates: fuel exceeding the template length (each recursive
call - loop continuation, block body, else branch - runs on a strictly
shorter string) suffices for render to return a result. -/
theorem render_terminates_partialFree :
    ∀ (fuel : Nat) (t : Str) (c : Ctx) (ps : Partials),
      partialFree t → t.length < fuel → (render fuel t c ps).isSome = true := by
  intro fuel
  induction fuel with
  | zero => intro t c ps _ h; omega
  | succ fuel ih =>
      intro t c ps hpf hlen
      show (renderStep (render fuel) t c ps).isSome = true
      unfold renderStep
      by_cases ht : t.isEmpty = true
      · rw [if_pos ht]; rfl
      rw [if_neg ht]
      have htlen : 1 ≤ t.length := by
        cases t with
        | nil => exact absurd rfl ht
        | cons _ _ => simp
      cases hidx : idxOfBraces t with
      | none => rfl
      | some tagIdx =>
          simp only []
          have htag : tagIdx < t.length := idxOfBraces_lt hidx
          rw [hpf tagIdx htag]
          cases hem : matchEach (t.drop tagIdx) with
          | some pl =>
              obtain ⟨path, len⟩ := pl
              simp only []
              have hlp : 1 ≤ len := matchBlockOpen_len_pos hem
              have hdd : (t.drop tagIdx).drop len = t.drop (tagIdx + len) := by
                rw [List.drop_drop]
              rw [hdd]
              have hcl : (t.drop (tagIdx + len)).length ≤ t.length - (tagIdx + len) := by
                simp [List.length_drop]
              obtain ⟨hbpf, hblen, hrpf, hrlen⟩ :=
                block_body_facts t hpf (tagIdx + len) (toL "each") (by decide)
              have hblt : (findBlockEnd (t.drop (tagIdx + len)) (toL "each")).1.length <
                  fuel := by
                simp only [List.length_drop] at hblen ⊢
                omega
              have hrlt : (findBlockEnd (t.drop (tagIdx + len)) (toL "each")).2.length <
                  fuel := by
                simp only [List.length_drop] at hrlen ⊢
                omega
              obtain ⟨b, hb⟩ := Option.isSome_iff_exists.mp
                (ih (findBlockEnd (t.drop (tagIdx + len)) (toL "each")).2 c ps hrpf hrlt)
              cases hv : resolvePath (.obj c) path with
              | arr xs =>
                  simp only []
                  obtain ⟨a, ha⟩ := Option.isSome_iff_exists.mp
                    (iterItems_isSome _
                      (fun v i => ih _ (itemContext c v i xs.length) ps hbpf hblt) xs 0)
                  rw [ha, hb]
                  rfl
              | null => rw [hb]; rfl
              | undef => rw [hb]; rfl
              | bool bv => rw [hb]; rfl
              | num nv => rw [hb]; rfl
              | str sv => rw [hb]; rfl
              | obj ov => rw [hb]; rfl
          | none =>
              cases him : matchIf (t.drop tagIdx) with
              | some pl =>
                  obtain ⟨path, len⟩ := pl
                  simp only []
                  have hlp : 1 ≤ len := matchBlockOpen_len_pos him
                  have hdd : (t.drop tagIdx).drop len = t.drop (tagIdx + len) := by
                    rw [List.drop_drop]
                  rw [hdd]
                  obtain ⟨hbpf, hblen, hrpf, hrlen⟩ :=
                    block_body_facts t hpf (tagIdx + len) (toL "if") (by decide)
                  obtain ⟨hepf1, helen1, hepf2, helen2⟩ :=
                    elseSplit_facts (findBlockEnd (t.drop (tagIdx + len)) (toL "if")).1 hbpf
                  have harm : partialFree (if truthy (resolvePath (.obj c) path)
                      then (elseSplit (findBlockEnd (t.drop (tagIdx + len)) (toL "if")).1).1
                      else (elseSplit (findBlockEnd (t.drop (tagIdx + len))
                        (toL "if")).1).2) := by
                    cases truthy (resolvePath (.obj c) path)
                    · simpa using hepf2
                    · simpa using hepf1
                  have harml : (if truthy (resolvePath (.obj c) path)
                      then (elseSplit (findBlockEnd (t.drop (tagIdx + len)) (toL "if")).1).1
                      else (elseSplit (findBlockEnd (t.drop (tagIdx + len))
                        (toL "if")).1).2).length < fuel := by
                    cases truthy (resolvePath (.obj c) path)
                    · simp only [Bool.false_eq_true, if_false]
                      simp only [List.length_drop] at helen2 hblen ⊢
                      omega
                    · simp only [if_true]
                      simp only [List.length_drop] at helen1 hblen ⊢
                      omega
                  obtain ⟨a, ha⟩ := Option.isSome_iff_exists.mp (ih _ c ps harm harml)
                  have hrlt : (findBlockEnd (t.drop (tagIdx + len)) (toL "if")).2.length <
                      fuel := by
                    simp only [List.length_drop] at hrlen ⊢
                    omega
                  obtain ⟨b, hb⟩ := Option.isSome_iff_exists.mp
                    (ih (findBlockEnd (t.drop (tagIdx + len)) (toL "if")).2 c ps hrpf hrlt)
                  rw [ha, hb]
                  rfl
              | none =>
                  cases hum : matchUnless (t.drop tagIdx) with
                  | some pl =>
                      obtain ⟨path, len⟩ := pl
                      simp only []
                      have hlp : 1 ≤ len := matchBlockOpen_len_pos hum
                      have hdd : (t.drop tagIdx).drop len = t.drop (tagIdx + len) := by
                        rw [List.drop_drop]
                      rw [hdd]
                      obtain ⟨hbpf, hblen, hrpf, hrlen⟩ :=
                        block_body_facts t hpf (tagIdx + len) (toL "unless") (by decide)
                      have hblt : (findBlockEnd (t.drop (tagIdx + len))
                          (toL "unless")).1.length < fuel := by
                        simp only [List.length_drop] at hblen ⊢
                        omega
                      have hrlt : (findBlockEnd (t.drop (tagIdx + len))
                          (toL "unless")).2.length < fuel := by
                        simp only [List.length_drop] at hrlen ⊢
                        omega
                      obtain ⟨a, ha⟩ := Option.isSome_iff_exists.mp
                        (ih (findBlockEnd (t.drop (tagIdx + len)) (toL "unless")).1 c ps
                          hbpf hblt)
                      obtain ⟨b, hb⟩ := Option.isSome_iff_exists.mp
                        (ih (findBlockEnd (t.drop (tagIdx + len)) (toL "unless")).2 c ps
                          hrpf hrlt)
                      cases truthy (resolvePath (.obj c) path)
                      · rw [if_neg (by simp)]
                        rw [ha, hb]
                        rfl
                      · rw [if_pos rfl]
                        rw [hb]
                        rfl
                  | none =>
                      cases hvm : matchVar (t.drop tagIdx) with
                      | some pl =>
                          obtain ⟨path, len⟩ := pl
                          simp only []
                          have hlp : 1 ≤ len := matchVar_len_pos hvm
                          have hdd : (t.drop tagIdx).drop len = t.drop (tagIdx + len) := by
                            rw [List.drop_drop]
                          rw [hdd]
                          obtain ⟨b, hb⟩ := Option.isSome_iff_exists.mp
                            (ih (t.drop (tagIdx + len)) c ps
                              (partialFree_drop hpf (tagIdx + len))
                              (by simp only [List.length_drop]; omega))
                          rw [hb]
                          rfl
                      | none =>
                          have hdd : (t.drop tagIdx).drop 2 = t.drop (tagIdx + 2) := by
                            rw [List.drop_drop]
                          rw [hdd]
                          obtain ⟨b, hb⟩ := Option.isSome_iff_exists.mp
                            (ih (t.drop (tagIdx + 2)) c ps
                              (partialFree_drop hpf (tagIdx + 2))
                              (by simp only [List.length_drop]; omega))
                          rw [hb]
                          rfl

/-- C10, witness: a partial-free template renders with fuel one above
its length. -/
theorem render_terminates_partialFree_witness :
    (partialFree (toL "\x7b\x7b#if x\x7d\x7dA\x7b\x7b/if\x7d\x7d") ∧
      (toL "\x7b\x7b#if x\x7d\x7dA\x7b\x7b/if\x7d\x7d").length < 18) ∧
    (render 18 (toL "\x7b\x7b#if x\x7d\x7dA\x7b\x7b/if\x7d\x7d") [] []).isSome = true :=
  ⟨⟨by decide, by decide⟩,
    render_terminates_partialFree 18 (toL "\x7b\x7b#if x\x7d\x7dA\x7b\x7b/if\x7d\x7d") [] []
      (by decide) (by decide)⟩

end PVTFC
